import Mathlib

/-!
Verification of the chesag search and evaluation core.

This file gives a shallow embedding of the search/evaluation core of the
chesag chess engine (alpha-beta negamax with quiescence, static evaluation,
MCTS node operations, transposition cache, result aggregation) and proves
or refutes the specified properties of that code.

Scores in the Python source are IEEE floats that are only ever produced by
sums/products of decimal constants, negation, comparison and `max`, plus the
two infinities `float("inf")` and `float("-inf")`.  All of those operations
are exact on the values the program manipulates, so scores are embedded as
rationals extended with two infinities (`EScore`).
-/

/-- Extended score domain: rational numbers together with `float("-inf")`
and `float("inf")` as used by the Python source. -/
inductive EScore : Type where
  | ninf : EScore
  | fin (q : ℚ) : EScore
  | pinf : EScore
deriving DecidableEq, Repr

namespace EScore

/-- Order on extended scores, mirroring IEEE comparison on the embedded values. -/
def ele : EScore → EScore → Prop
  | ninf, _ => True
  | fin _, ninf => False
  | fin a, fin b => a ≤ b
  | fin _, pinf => True
  | pinf, ninf => False
  | pinf, fin _ => False
  | pinf, pinf => True

instance : LE EScore := ⟨ele⟩

theorem le_def (a b : EScore) : (a ≤ b) = ele a b := rfl

instance decidableLE : DecidableRel (fun a b : EScore => a ≤ b) := by
  intro a b
  cases a <;> cases b <;> simp only [le_def, ele] <;> infer_instance

instance : LinearOrder EScore where
  le_refl a := by cases a <;> simp [le_def, ele]
  le_trans a b c hab hbc := by
    cases a <;> cases b <;> cases c <;>
      simp only [le_def, ele] at * <;> first | trivial | exact le_trans hab hbc
  le_antisymm a b hab hba := by
    cases a <;> cases b <;> simp only [le_def, ele] at * <;>
      first | rfl | exact congrArg EScore.fin (le_antisymm hab hba)
  le_total a b := by
    cases a <;> cases b <;> simp only [le_def, ele] <;>
      first | left ; trivial | right ; trivial | exact le_total _ _
  decidableLE := decidableLE

theorem ninf_le (a : EScore) : ninf ≤ a := by cases a <;> simp [le_def, ele]

theorem le_pinf (a : EScore) : a ≤ pinf := by cases a <;> simp [le_def, ele]

theorem le_ninf_iff {a : EScore} : a ≤ ninf ↔ a = ninf := by
  cases a <;> simp [le_def, ele]

theorem pinf_le_iff {a : EScore} : pinf ≤ a ↔ a = pinf := by
  cases a <;> simp [le_def, ele]

theorem ninf_lt_pinf : (ninf : EScore) < pinf := by
  constructor <;> simp [le_def, ele]

/-- Negation of an extended score (float unary minus; swaps the infinities). -/
def eneg : EScore → EScore
  | ninf => pinf
  | fin q => fin (-q)
  | pinf => ninf

@[simp] theorem eneg_eneg (a : EScore) : eneg (eneg a) = a := by
  cases a <;> simp [eneg]

@[simp] theorem eneg_le_eneg_iff {a b : EScore} : eneg a ≤ eneg b ↔ b ≤ a := by
  cases a <;> cases b <;> simp [eneg, le_def, ele]

@[simp] theorem eneg_lt_eneg_iff {a b : EScore} : eneg a < eneg b ↔ b < a := by
  constructor
  · intro h
    rcases lt_iff_le_not_le.mp h with ⟨h1, h2⟩
    exact lt_iff_le_not_le.mpr ⟨eneg_le_eneg_iff.mp h1, fun hc => h2 (eneg_le_eneg_iff.mpr hc)⟩
  · intro h
    rcases lt_iff_le_not_le.mp h with ⟨h1, h2⟩
    exact lt_iff_le_not_le.mpr ⟨eneg_le_eneg_iff.mpr h1, fun hc => h2 (eneg_le_eneg_iff.mp hc)⟩

theorem eneg_le_iff {a b : EScore} : eneg a ≤ b ↔ eneg b ≤ a := by
  cases a <;> cases b <;> simp [eneg, le_def, ele, neg_le]

theorem le_eneg_iff {a b : EScore} : a ≤ eneg b ↔ b ≤ eneg a := by
  cases a <;> cases b <;> simp [eneg, le_def, ele, le_neg]

theorem eneg_lt_iff {a b : EScore} : eneg a < b ↔ eneg b < a := by
  rw [lt_iff_not_ge, lt_iff_not_ge, ge_iff_le, ge_iff_le, le_eneg_iff]

theorem lt_eneg_iff {a b : EScore} : a < eneg b ↔ b < eneg a := by
  rw [lt_iff_not_ge, lt_iff_not_ge, ge_iff_le, ge_iff_le, eneg_le_iff]

theorem eneg_max (a b : EScore) : eneg (max a b) = min (eneg a) (eneg b) := by
  rcases le_total a b with h | h
  · rw [max_eq_right h, min_eq_right (eneg_le_eneg_iff.mpr h)]
  · rw [max_eq_left h, min_eq_left (eneg_le_eneg_iff.mpr h)]

theorem eneg_min (a b : EScore) : eneg (min a b) = max (eneg a) (eneg b) := by
  rcases le_total a b with h | h
  · rw [min_eq_left h, max_eq_left (eneg_le_eneg_iff.mpr h)]
  · rw [min_eq_right h, max_eq_right (eneg_le_eneg_iff.mpr h)]

end EScore

/-!
## Alpha-beta searcher (src/chesag/agents/minimax.py)

The searcher consumes a chess position only through move generation, move
ordering and leaf evaluation.  For a fixed position, fixed depth and the
fixed move ordering produced by the prioritizer, those interactions unfold
into a finite tree, which is what the embedding works on:

* `QTree`: the quiescence tree of a position — its stand-pat score
  (`quick_evaluate` from the side to move) and the subtrees of its noisy
  moves (captures/promotions), in prioritizer order.
* `GTree`: the main search tree of a position — the from/to square pair of
  the move that reached it, its game-over flag, its quiescence tree, and
  the subtrees of its legal moves in the order the prioritizer produced
  them during the run (history-table bias included, so one fixed tree per
  run; the unpruned comparator of the claim runs over the same tree, and
  the unpruned minimax value is move-order independent).

`qsearch` mirrors `MinimaxAgent.quiescence`; `negamaxH`/`gloopH` mirror
`MinimaxAgent.negamax` including its prioritizer state: `quiescence` is
fail-hard (returns `beta` on a cutoff and `alpha` otherwise), `negamax` is
fail-soft (returns the running `value`) and records a history bump through
the spec-modelled `record_history` on every fail-high cutoff.
`negamax`/`gloop` are the value components of that recursion (the history
table never feeds back into a value inside one call; `negamaxH_fst` proves
the projection), and `qval`/`gval` are the same value recursions with all
pruning removed: full unpruned minimax with the identical quiescence leaf
evaluation.
-/

/-- Quiescence tree of a position: stand-pat score (`quick_evaluate` from the
side to move) and the ordered noisy-move subtrees. -/
inductive QTree : Type where
  | node (sp : EScore) (cs : List QTree) : QTree

/-- Main search tree of a position: the (from_square, to_square) pair of the
move that produced it, the `is_game_over()` flag, the quiescence tree, and
the ordered legal-move subtrees. -/
inductive GTree : Type where
  | node (mv : ℤ × ℤ) (over : Bool) (q : QTree) (cs : List GTree) : GTree

/-- The move that produced this position (the loop variable of the parent
searching it). -/
def GTree.mv : GTree → ℤ × ℤ
  | .node m _ _ _ => m

open EScore

mutual

/-- Embedding of `MinimaxAgent.quiescence` (minimax.py lines 72-92):
stand-pat beta cutoff, raise alpha to the stand-pat, then search noisy moves
with the negated window, failing hard at `beta`. -/
def qsearch : QTree → EScore → EScore → EScore
  | QTree.node sp cs, a, b => if b ≤ sp then b else qloop cs (max sp a) b

/-- The noisy-move loop of `MinimaxAgent.quiescence`: each move is searched
with window `(-beta, -alpha)`; a score at or above `beta` returns `beta`,
otherwise `alpha` is raised to the score and the loop continues, finally
returning `alpha`. -/
def qloop : List QTree → EScore → EScore → EScore
  | [], a, _ => a
  | c :: rest, a, b =>
    if b ≤ eneg (qsearch c (eneg b) (eneg a)) then b
    else qloop rest (max (eneg (qsearch c (eneg b) (eneg a))) a) b

end

mutual

/-- Exact (unpruned) value of a quiescence tree: the maximum of the stand-pat
score and the negations of the exact values of the noisy-move subtrees. -/
def qval : QTree → EScore
  | QTree.node sp cs => qfold cs sp

/-- Left fold accumulating `max acc (-qval child)` over noisy-move subtrees. -/
def qfold : List QTree → EScore → EScore
  | [], a => a
  | c :: rest, a => qfold rest (max a (eneg (qval c)))

end

mutual

/-- The value component of `MinimaxAgent.negamax` (minimax.py lines 47-69):
at depth 0 or on a game-over position it returns the quiescence value for
the current window; otherwise it searches the ordered legal moves with
alpha-beta pruning, returning the running fail-soft `value`.  The faithful
embedding including the prioritizer state is `negamaxH` below;
`negamaxH_fst` proves this recursion is its value projection. -/
def negamax : GTree → ℕ → EScore → EScore → EScore
  | GTree.node _ over q cs, d, a, b =>
    if d = 0 ∨ over = true then qsearch q a b
    else gloop cs (d - 1) ninf a b

/-- The value component of the move loop of `MinimaxAgent.negamax`:
`value = max(value, -negamax(child, depth-1, -beta, -alpha))`, then
`alpha = max(alpha, value)`; if `alpha >= beta` the loop breaks and `value`
is returned. -/
def gloop : List GTree → ℕ → EScore → EScore → EScore → EScore
  | [], _, v, _, _ => v
  | c :: rest, d, v, a, b =>
    if b ≤ max a (max v (eneg (negamax c d (eneg b) (eneg a)))) then
      max v (eneg (negamax c d (eneg b) (eneg a)))
    else
      gloop rest d (max v (eneg (negamax c d (eneg b) (eneg a))))
        (max a (max v (eneg (negamax c d (eneg b) (eneg a))))) b

end

/-- The per-search-call history table of the move prioritizer, keyed by a
move's (from_square, to_square) pair. -/
abbrev HistoryTable := List ((ℤ × ℤ) × ℕ)

/-- Modelled from the spec: `HeuristicMovePrioritizer.record_history`.
minimax.py line 66 calls `self.move_prioritizer.record_history(move,
depth)` on every fail-high cutoff, but move_priority.py in the src snapshot
defines no such method — repository code whose only trace under src is this
caller.  The spec describes it (MoveOrderingState, sections 3 and 4.3): a
per-search-call history table indexed by the move's from/to square pair
whose entry is incremented by depth squared on a cutoff, biasing move
ordering later in the same search call.  It returns nothing: its only
effect is this state update, which the tree embedding accounts for by
fixing each node's move order to the order the prioritizer produced during
the run. -/
def record_history (tbl : HistoryTable) (mv : ℤ × ℤ) (depth : ℕ) : HistoryTable :=
  match tbl with
  | [] => [(mv, depth ^ 2)]
  | (k, v) :: rest =>
    if k = mv then (k, v + depth ^ 2) :: rest else (k, v) :: record_history rest mv depth

mutual

/-- Embedding of `MinimaxAgent.negamax` (minimax.py lines 47-69) with the
prioritizer state: at depth 0 or on a game-over position it returns the
quiescence value for the current window and the untouched history table;
otherwise it searches the ordered legal moves with alpha-beta pruning
through `gloopH`. -/
def negamaxH : GTree → ℕ → EScore → EScore → HistoryTable → EScore × HistoryTable
  | GTree.node _ over q cs, d, a, b, h =>
    if d = 0 ∨ over = true then (qsearch q a b, h)
    else gloopH cs (d - 1) ninf a b h

/-- The move loop of `MinimaxAgent.negamax` with the prioritizer state:
`value = max(value, -negamax(child, depth-1, -beta, -alpha))`, then
`alpha = max(alpha, value)`; on `alpha >= beta` it records the history bump
`record_history(move, depth)` for the move just searched (minimax.py line
66) and breaks, returning the running fail-soft `value`.  The loop receives
the children-side depth `d = depth - 1`, so the recorded depth is `d + 1`. -/
def gloopH : List GTree → ℕ → EScore → EScore → EScore → HistoryTable →
    EScore × HistoryTable
  | [], _, v, _, _, h => (v, h)
  | c :: rest, d, v, a, b, h =>
    let r := negamaxH c d (eneg b) (eneg a) h
    if b ≤ max a (max v (eneg r.1)) then
      (max v (eneg r.1), record_history r.2 c.mv (d + 1))
    else gloopH rest d (max v (eneg r.1)) (max a (max v (eneg r.1))) b r.2

end

/-- Helper for `negamaxH_fst`: the history table never feeds back into the
value computed by the move loop. -/
theorem gloopH_fst_of (d : ℕ) (cs : List GTree)
    (IH : ∀ c ∈ cs, ∀ (a b : EScore) (h : HistoryTable),
      (negamaxH c d a b h).1 = negamax c d a b) :
    ∀ (v a b : EScore) (h : HistoryTable),
    (gloopH cs d v a b h).1 = gloop cs d v a b := by
  induction cs with
  | nil =>
    intro v a b h
    rfl
  | cons c rest ih =>
    intro v a b h
    simp only [gloopH, gloop]
    rw [IH c (List.mem_cons_self c rest) (eneg b) (eneg a) h]
    by_cases hc : b ≤ max a (max v (eneg (negamax c d (eneg b) (eneg a))))
    · rw [if_pos hc, if_pos hc]
    · rw [if_neg hc, if_neg hc]
      exact ih (fun x hx => IH x (List.mem_cons_of_mem c hx)) _ _ _ _

/-- The value component of `negamaxH` is `negamax`: the history table has no
effect on any search value within one call. -/
theorem negamaxH_fst : ∀ (t : GTree) (d : ℕ) (a b : EScore) (h : HistoryTable),
    (negamaxH t d a b h).1 = negamax t d a b
  | GTree.node mv over q cs, d, a, b, h => by
    simp only [negamaxH, negamax]
    by_cases hleaf : d = 0 ∨ over = true
    · rw [if_pos hleaf, if_pos hleaf]
    · rw [if_neg hleaf, if_neg hleaf]
      exact gloopH_fst_of (d - 1) cs
        (fun c hc a2 b2 h2 => negamaxH_fst c (d - 1) a2 b2 h2) ninf a b h
termination_by t => sizeOf t
decreasing_by
  have := List.sizeOf_lt_of_mem hc
  simp only [GTree.node.sizeOf_spec]
  omega

mutual

/-- Exact (unpruned) minimax value of a search tree with the same quiescence
leaf evaluation: `negamax` with all pruning removed. -/
def gval : GTree → ℕ → EScore
  | GTree.node _ over q cs, d =>
    if d = 0 ∨ over = true then qval q else gfold cs (d - 1) ninf

/-- Left fold accumulating `max acc (-gval child (d))` over legal-move
subtrees. -/
def gfold : List GTree → ℕ → EScore → EScore
  | [], _, v => v
  | c :: rest, d, v => gfold rest d (max v (eneg (gval c d)))

end

/-! ### Fold helper lemmas -/

theorem qfold_init (cs : List QTree) (a b : EScore) :
    qfold cs (max a b) = max a (qfold cs b) := by
  induction cs generalizing b with
  | nil => simp [qfold]
  | cons c rest ih => simp only [qfold]; rw [max_assoc, ih]

theorem self_le_qfold (cs : List QTree) (a : EScore) : a ≤ qfold cs a := by
  induction cs generalizing a with
  | nil => simp [qfold]
  | cons c rest ih => simp only [qfold]; exact le_trans (le_max_left _ _) (ih _)

theorem gfold_init (cs : List GTree) (d : ℕ) (a b : EScore) :
    gfold cs d (max a b) = max a (gfold cs d b) := by
  induction cs generalizing b with
  | nil => simp [gfold]
  | cons c rest ih => simp only [gfold]; rw [max_assoc, ih]

theorem self_le_gfold (cs : List GTree) (d : ℕ) (a : EScore) : a ≤ gfold cs d a := by
  induction cs generalizing a with
  | nil => simp [gfold]
  | cons c rest ih => simp only [gfold]; exact le_trans (le_max_left _ _) (ih _)

theorem gfold_mono (cs : List GTree) (d : ℕ) {a b : EScore} (h : a ≤ b) :
    gfold cs d a ≤ gfold cs d b := by
  induction cs generalizing a b with
  | nil => simpa [gfold] using h
  | cons c rest ih => simp only [gfold]; exact ih (max_le_max h le_rfl)

/-! ### Quiescence correctness

`quiescence` is fail-hard alpha-beta over the quiescence tree; on a window
`alpha < beta` it returns the exact unpruned value clamped into the window.
-/

/-- Helper for `qsearch_eq`: the noisy-move loop, on window `a < b`, computes
the exact fold value clamped above at `b`, provided quiescence is exact
(clamped) on every subtree. -/
theorem qloop_eq_of (cs : List QTree)
    (IH : ∀ c ∈ cs, ∀ x y : EScore, x < y → qsearch c x y = min y (max x (qval c))) :
    ∀ a b : EScore, a < b → qloop cs a b = min b (qfold cs a) := by
  induction cs with
  | nil =>
    intro a b h
    simp only [qloop, qfold]
    exact (min_eq_right h.le).symm
  | cons c rest ih =>
    intro a b h
    simp only [qloop, qfold]
    rw [IH c (List.mem_cons_self c rest) (eneg b) (eneg a) (eneg_lt_eneg_iff.mpr h)]
    rw [eneg_min, eneg_max, eneg_eneg, eneg_eneg]
    by_cases hbs : b ≤ max a (min b (eneg (qval c)))
    · rw [if_pos hbs]
      have hbw : b ≤ eneg (qval c) := by
        by_contra hc
        push_neg at hc
        exact absurd hbs
          (not_le.mpr (max_lt h (lt_of_le_of_lt (min_le_right b _) hc)))
      rw [min_eq_left
        (le_trans (le_trans hbw (le_max_right a _)) (self_le_qfold rest _))]
    · rw [if_neg hbs]
      push_neg at hbs
      have hwb : eneg (qval c) < b := by
        by_contra hc
        push_neg at hc
        rw [min_eq_left hc] at hbs
        exact absurd hbs (not_lt.mpr (le_max_right a b))
      rw [max_comm (max a (min b (eneg (qval c)))) a, max_eq_right (le_max_left a _)]
      rw [ih (fun x hx => IH x (List.mem_cons_of_mem c hx)) (max a (min b (eneg (qval c)))) b hbs]
      rw [min_eq_right hwb.le]

/-- Fail-hard quiescence correctness: on a window `alpha < beta`,
`quiescence` returns the exact unpruned quiescence value clamped into the
window (`min beta (max alpha exact)`). -/
theorem qsearch_eq : ∀ (t : QTree) (a b : EScore), a < b →
    qsearch t a b = min b (max a (qval t))
  | QTree.node sp cs, a, b, h => by
    simp only [qsearch, qval]
    by_cases hb : b ≤ sp
    · rw [if_pos hb, min_eq_left
        (le_trans (le_trans hb (self_le_qfold cs sp)) (le_max_right a _))]
    · rw [if_neg hb]
      have h2 : max sp a < b := max_lt (not_le.mp hb) h
      rw [qloop_eq_of cs (fun c hc x y hxy => qsearch_eq c x y hxy) (max sp a) b h2]
      rw [max_comm sp a, qfold_init]
termination_by t => sizeOf t
decreasing_by
  have := List.sizeOf_lt_of_mem hc
  simp only [QTree.node.sizeOf_spec]
  omega

/-! ### Fail-soft negamax correctness

`negamax` returns the running `value` rather than a window bound, so it is
fail-soft: on a window `alpha < beta` the result `r` agrees with the exact
value `v` when `alpha < v < beta`, bounds it from above when `v ≤ alpha`
(`v ≤ r ≤ alpha`) and from below when `beta ≤ v` (`beta ≤ r ≤ v`).
-/

/-- Fail-soft alpha-beta contract for a result `r` against an exact value `v`
on the window `(a, b)`. -/
def approx (a b v r : EScore) : Prop :=
  (v ≤ a → v ≤ r ∧ r ≤ a) ∧ (b ≤ v → b ≤ r ∧ r ≤ v) ∧ (a < v → v < b → r = v)

theorem approx_refl (a b v : EScore) : approx a b v v :=
  ⟨fun h => ⟨le_rfl, h⟩, fun h => ⟨h, le_rfl⟩, fun _ _ => rfl⟩

/-- A fail-hard clamp satisfies the fail-soft contract. -/
theorem clamp_approx {a b : EScore} (v : EScore) (h : a < b) :
    approx a b v (min b (max a v)) := by
  refine ⟨fun hva => ?_, fun hbv => ?_, fun hav hvb => ?_⟩
  · rw [max_eq_left hva, min_eq_right h.le]
    exact ⟨hva, le_rfl⟩
  · rw [min_eq_left (le_trans hbv (le_max_right a v))]
    exact ⟨le_rfl, hbv⟩
  · rw [max_eq_right hav.le, min_eq_right hvb.le]

/-- Negating result and exact value flips the window of the contract. -/
theorem approx_eneg {a b v r : EScore} (h : approx (eneg b) (eneg a) v r) :
    approx a b (eneg v) (eneg r) := by
  obtain ⟨h1, h2, h3⟩ := h
  refine ⟨fun hva => ?_, fun hbv => ?_, fun hav hvb => ?_⟩
  · obtain ⟨hr1, hr2⟩ := h2 (eneg_le_iff.mp hva)
    exact ⟨eneg_le_eneg_iff.mpr hr2, eneg_le_iff.mp hr1⟩
  · obtain ⟨hr1, hr2⟩ := h1 (le_eneg_iff.mp hbv)
    exact ⟨le_eneg_iff.mp hr2, eneg_le_eneg_iff.mpr hr1⟩
  · have hh := h3 (eneg_lt_iff.mp hvb) (lt_eneg_iff.mp hav)
    rw [hh]

/-- Raising the exact value from `V` to some `V'` with `V ≤ V' ≤ max a V`
preserves the contract (the lift can only live below `alpha`). -/
theorem approx_init_lift {a b V V' r : EScore} (hab : a < b) (h1 : V ≤ V')
    (h2 : V' ≤ max a V) (h : approx a b V' r) : approx a b V r := by
  obtain ⟨c1, c2, c3⟩ := h
  refine ⟨fun hVa => ?_, fun hbV => ?_, fun haV hVb => ?_⟩
  · have hV'a : V' ≤ a := le_trans h2 (max_le le_rfl hVa)
    exact ⟨le_trans h1 (c1 hV'a).1, (c1 hV'a).2⟩
  · have hV'V : V' = V := le_antisymm (le_trans h2 (max_le (le_trans hab.le hbV) le_rfl)) h1
    subst hV'V
    exact c2 hbV
  · have hV'V : V' = V := le_antisymm (le_trans h2 (max_le haV.le le_rfl)) h1
    subst hV'V
    exact c3 haV hVb

/-- Lowering alpha from `w` to `a < w` preserves the contract when the exact
value is at least `w`. -/
theorem approx_alpha_lower {a b w V r : EScore} (haw : a < w) (hwV : w ≤ V)
    (h : approx w b V r) : approx a b V r := by
  obtain ⟨c1, c2, c3⟩ := h
  refine ⟨fun hVa => ?_, c2, fun _ hVb => ?_⟩
  · exact absurd (lt_of_lt_of_le haw (le_trans hwV hVa)) (lt_irrefl a)
  · rcases lt_or_eq_of_le hwV with hlt | heq
    · exact c3 hlt hVb
    · obtain ⟨hr1, hr2⟩ := c1 heq.symm.le
      exact le_antisymm (heq ▸ hr2) hr1

/-- Helper for `negamax_spec`: the move loop of `negamax` satisfies the
fail-soft contract against the exact fold value, provided every child search
satisfies the contract on every window. -/
theorem gloop_spec_of (d : ℕ) (cs : List GTree)
    (IH : ∀ c ∈ cs, ∀ x y : EScore, x < y → approx x y (gval c d) (negamax c d x y)) :
    ∀ (v0 a b : EScore), a < b → v0 ≤ a →
    approx a b (gfold cs d v0) (gloop cs d v0 a b) := by
  induction cs with
  | nil =>
    intro v0 a b _ _
    simp only [gloop, gfold]
    exact approx_refl a b v0
  | cons c rest ih =>
    intro v0 a b hab hv0a
    simp only [gloop, gfold]
    have hcap : approx a b (eneg (gval c d)) (eneg (negamax c d (eneg b) (eneg a))) :=
      approx_eneg (IH c (List.mem_cons_self c rest) (eneg b) (eneg a)
        (eneg_lt_eneg_iff.mpr hab))
    set w := eneg (gval c d) with hw
    set s := eneg (negamax c d (eneg b) (eneg a)) with hs
    by_cases hbr : b ≤ max a (max v0 s)
    · rw [if_pos hbr]
      have hbs : b ≤ s := by
        by_contra hcon
        push_neg at hcon
        exact absurd hbr (not_le.mpr (max_lt hab (max_lt (lt_of_le_of_lt hv0a hab) hcon)))
      have hsw : b ≤ w ∧ s ≤ w := by
        rcases le_or_lt w a with hwa | haw
        · exact absurd (le_trans hbs (hcap.1 hwa).2) (not_le.mpr hab)
        · rcases le_or_lt b w with hbw | hwb
          · exact ⟨hbw, (hcap.2.1 hbw).2⟩
          · exact absurd (hcap.2.2 haw hwb ▸ hbs) (not_le.mpr hwb)
      have hVb : b ≤ gfold rest d (max v0 w) :=
        le_trans (le_trans hsw.1 (le_max_right v0 w)) (self_le_gfold rest d _)
      refine ⟨fun hVa => absurd (le_trans hVb hVa) (not_le.mpr hab), fun _ => ?_,
        fun _ hVlt => absurd hVb (not_le.mpr hVlt)⟩
      exact ⟨le_trans hbs (le_max_right v0 s),
        le_trans (max_le_max le_rfl hsw.2) (self_le_gfold rest d _)⟩
    · rw [if_neg hbr]
      push_neg at hbr
      have hsb : s < b := lt_of_le_of_lt (le_trans (le_max_right v0 s) (le_max_right a _)) hbr
      have hstep := ih (fun x hx => IH x (List.mem_cons_of_mem c hx)) (max v0 s)
        (max a (max v0 s)) b hbr (le_max_right a _)
      rcases le_or_lt w a with hwa | haw
      · obtain ⟨hws, hsa⟩ := hcap.1 hwa
        have ha2 : max a (max v0 s) = a := max_eq_left (max_le hv0a hsa)
        rw [ha2] at hstep ⊢
        refine approx_init_lift hab (gfold_mono rest d (max_le_max le_rfl hws)) ?_ hstep
        have h1 : max v0 s ≤ max a (max v0 w) :=
          max_le (le_trans (le_max_left v0 w) (le_max_right a _))
            (le_trans hsa (le_max_left a _))
        exact le_trans (gfold_mono rest d h1) (le_of_eq (gfold_init rest d a (max v0 w)))
      · have hwb : w < b := by
          rcases le_or_lt b w with hbw | h
          · exact absurd (hcap.2.1 hbw).1 (not_le.mpr hsb)
          · exact h
        have hseq : s = w := hcap.2.2 haw hwb
        rw [hseq] at hstep ⊢
        have ha2 : max a (max v0 w) = w := by
          rw [max_eq_right (le_trans hv0a haw.le), max_eq_right haw.le]
        rw [ha2] at hstep ⊢
        exact approx_alpha_lower haw
          (le_trans (le_max_right v0 w) (self_le_gfold rest d _)) hstep

/-- Fail-soft negamax correctness: on any window `alpha < beta`, the pruned
`negamax` result satisfies the fail-soft contract against the exact unpruned
minimax value `gval`. -/
theorem negamax_spec : ∀ (t : GTree) (d : ℕ) (a b : EScore), a < b →
    approx a b (gval t d) (negamax t d a b)
  | GTree.node _ over q cs, d, a, b, h => by
    by_cases hleaf : d = 0 ∨ over = true
    · simp only [negamax, gval, if_pos hleaf]
      rw [qsearch_eq q a b h]
      exact clamp_approx (qval q) h
    · simp only [negamax, gval, if_neg hleaf]
      exact gloop_spec_of (d - 1) cs
        (fun c hc x y hxy => negamax_spec c (d - 1) x y hxy) ninf a b h (ninf_le a)
termination_by t => sizeOf t
decreasing_by
  have := List.sizeOf_lt_of_mem hc
  simp only [GTree.node.sizeOf_spec]
  omega

/-- On the full window `(-inf, inf)` — the window `get_move` passes for every
root move — pruned negamax returns exactly the unpruned minimax value. -/
theorem negamax_exact (t : GTree) (d : ℕ) : negamax t d ninf pinf = gval t d := by
  obtain ⟨c1, c2, c3⟩ := negamax_spec t d ninf pinf ninf_lt_pinf
  rcases le_or_lt (gval t d) ninf with h1 | h1
  · obtain ⟨_, hr2⟩ := c1 h1
    rw [le_ninf_iff.mp hr2, le_ninf_iff.mp h1]
  · rcases le_or_lt pinf (gval t d) with h2 | h2
    · obtain ⟨hr1, _⟩ := c2 h2
      rw [pinf_le_iff.mp hr1, pinf_le_iff.mp h2]
    · exact c3 h1 h2

/-!
### `MinimaxAgent.get_move` (minimax.py lines 19-45)

After the resignation and single-legal-move early returns, `get_move` scores
every root move by a full-window `negamax` call at depth `maxdepth - 1` and
keeps the first strict improvement (`value > best_value` for White,
`value < best_value` for Black), starting from `None` with a best value of
`-inf` (White) or `inf` (Black) — i.e. a fixed first-maximum tie-break over
the fixed root move order.  The position is represented by the list of
subtrees reached by each root move, in root move order.
-/

/-- The root-move loop of `MinimaxAgent.get_move`, consuming the list of
(root move index, search value) pairs. -/
def get_move_loop (maximizing : Bool) :
    List (ℕ × EScore) → Option ℕ → EScore → Option ℕ × EScore
  | [], bm, bv => (bm, bv)
  | (i, value) :: rest, bm, bv =>
    if (maximizing = true ∧ bv < value) ∨ (maximizing = false ∧ value < bv) then
      get_move_loop maximizing rest (some i) value
    else get_move_loop maximizing rest bm bv

/-- The root loop of `MinimaxAgent.get_move` with the prioritizer state:
each root move is searched by a full-window `negamaxH` call at depth
`maxdepth - 1`, threading the shared prioritizer's history table through
the sequential calls; returns the per-root-move values and the final
table. -/
def ab_root_values_h : List GTree → ℕ → HistoryTable → List EScore × HistoryTable
  | [], _, h => ([], h)
  | c :: rest, d, h =>
    let r := negamaxH c d ninf pinf h
    let rr := ab_root_values_h rest d r.2
    (r.1 :: rr.1, rr.2)

/-- The value component of the root loop: the full-window `negamax` value of
each root move. -/
def ab_root_values (cs : List GTree) (d : ℕ) : List EScore :=
  cs.map (fun c => negamax c d ninf pinf)

/-- The history table threaded through the root loop never feeds back into
the root values. -/
theorem ab_root_values_h_fst (d : ℕ) :
    ∀ (cs : List GTree) (h : HistoryTable),
    (ab_root_values_h cs d h).1 = ab_root_values cs d := by
  intro cs
  induction cs with
  | nil =>
    intro h
    rfl
  | cons c rest ih =>
    intro h
    simp only [ab_root_values_h, ab_root_values, List.map_cons]
    rw [negamaxH_fst, ih]
    rfl

/-- Search value of each root move under full unpruned minimax with the same
quiescence leaf evaluation. -/
def mm_root_values (cs : List GTree) (d : ℕ) : List EScore :=
  cs.map (fun c => gval c d)

/-- `MinimaxAgent.get_move` root selection: best move (index into the fixed
root move order, `none` when no strict improvement ever fired, in which case
the source falls back to the first root move) and best value, computed from
either the pruned (`prune = true`, with history recording, starting from the
table `h0` the prioritizer holds when the search begins) or the unpruned
(`prune = false`) search values of the root moves. -/
def minimax_get_move (prune : Bool) (maximizing : Bool) (cs : List GTree) (d : ℕ)
    (h0 : HistoryTable) : Option ℕ × EScore :=
  get_move_loop maximizing
    (List.enum (if prune then (ab_root_values_h cs d h0).1 else mm_root_values cs d))
    none (if maximizing then ninf else pinf)

/-- C1: For every position (every list of root-move subtrees in the order
the prioritizer produced), every fixed search depth and every starting
history table, alpha-beta search with pruning (including the history
recording of every fail-high cutoff) returns the identical best move and
value as full unpruned minimax over the same tree, under the first-maximum
tie-break of `get_move`: the per-root-move search values coincide, and so
does the selected (move, value) pair for either side to move. -/
theorem alphabeta_matches_minimax (m : Bool) (cs : List GTree) (d : ℕ)
    (h0 : HistoryTable) :
    (ab_root_values_h cs d h0).1 = mm_root_values cs d ∧
    minimax_get_move true m cs d h0 = minimax_get_move false m cs d h0 := by
  have hvals : (ab_root_values_h cs d h0).1 = mm_root_values cs d := by
    rw [ab_root_values_h_fst]
    simp only [ab_root_values, mm_root_values]
    exact List.map_congr_left (fun c _ => negamax_exact c d)
  refine ⟨hvals, ?_⟩
  simp only [minimax_get_move, Bool.false_eq_true, if_true, if_false, hvals]

/-!
## Position evaluator (src/chesag/evaluation.py)

The evaluator consumes a `chess.Board` only through a fixed set of queries
(terminal flags, per-piece-type counts, pawn squares, attacker counts,
castling rights, king squares, per-square piece lookups, legal-move counts
with the turn temporarily swapped, and data about the last pushed move).
`BoardU` records the results of exactly those queries; the feature functions
below mirror evaluation.py line by line on top of it.  Decimal constants of
the source are embedded as exact rationals.
-/

/-- Chess piece types. -/
inductive Piece : Type where
  | pawn | knight | bishop | rook | queen | king
deriving DecidableEq, Repr

/-- `PIECE_VALUES` of evaluation.py. -/
def piece_value : Piece → ℚ
  | .pawn => 1.0
  | .knight => 3.2
  | .bishop => 3.33
  | .rook => 5.1
  | .queen => 9.5
  | .king => 0.0

/-- Iteration order of `PIECE_VALUES.items()`. -/
def piece_types : List Piece := [.pawn, .knight, .bishop, .rook, .queen, .king]

/-- Data about the last pushed move as queried by `move_bonus` and
`mvv_lva_score`: the `pre_` fields are the values of the corresponding
queries after the temporary `board.pop()`. -/
structure LastMoveU where
  promotion : Option Piece
  post_is_capture : Bool
  gives_check : Bool
  pre_is_capture : Bool
  pre_victim : Option Piece
  pre_is_en_passant : Bool
  pre_attacker : Option Piece
deriving DecidableEq, Repr

/-- A chess position as seen by the evaluator: the results of every
`chess.Board` query evaluation.py performs.  `true` is White (as in
`chess.WHITE`); squares are the 0..63 integers of python-chess. -/
structure BoardU where
  is_checkmate : Bool
  is_stalemate : Bool
  is_insufficient_material : Bool
  turn : Bool
  piece_count : Piece → Bool → ℕ
  pawn_squares : Bool → List ℤ
  attackers_count : Bool → ℤ → ℕ
  has_kingside_castling : Bool → Bool
  has_queenside_castling : Bool → Bool
  king_sq : Bool → Option ℤ
  piece_type_at : ℤ → Option Piece
  color_at : ℤ → Option Bool
  legal_move_count : Bool → ℕ
  last_move : Option LastMoveU

/-- `chess.square_file`. -/
def square_file (sq : ℤ) : ℤ := sq % 8

/-- `chess.square_rank`. -/
def square_rank (sq : ℤ) : ℤ := sq / 8

/-- `chess.square(file, rank)`. -/
def square_at (f r : ℤ) : ℤ := r * 8 + f

/-- `material_balance` of evaluation.py, White-relative part. -/
def material_raw (b : BoardU) : ℚ :=
  (piece_types.map (fun pt =>
    piece_value pt * (b.piece_count pt true : ℚ) -
      piece_value pt * (b.piece_count pt false : ℚ))).sum

/-- `material_balance(board, perspective_color)` of evaluation.py. -/
def material_balance (b : BoardU) (p : Bool) : ℚ :=
  if p then material_raw b else -material_raw b

/-- `bishop_pair_bonus` of evaluation.py, White-relative part
(`BISHOP_PAIR_BONUS = 0.5`). -/
def bishop_pair_raw (b : BoardU) : ℚ :=
  (if 2 ≤ b.piece_count .bishop true then (0.5 : ℚ) else 0) +
    (if 2 ≤ b.piece_count .bishop false then -(0.5 : ℚ) else 0)

/-- `bishop_pair_bonus(board, perspective_color)` of evaluation.py. -/
def bishop_pair_bonus (b : BoardU) (p : Bool) : ℚ :=
  if p then bishop_pair_raw b else -bishop_pair_raw b

/-- `is_passed_pawn` of evaluation.py: no enemy pawn on the same or an
adjacent file on any rank strictly ahead of the pawn. -/
def is_passed_pawn (b : BoardU) (sq : ℤ) (color : Bool) : Bool :=
  let file := square_file sq
  let rank := square_rank sq
  let rks : List ℤ :=
    ((List.range 8).map Int.ofNat).filter (fun r => if color then rank < r else r < rank)
  rks.all fun r => [file - 1, file, file + 1].all fun f =>
    !(decide (0 ≤ f) && decide (f ≤ 7) && (b.pawn_squares (!color)).contains (square_at f r))

/-- `passed_pawn_score` of evaluation.py, White-relative part
(`PASSED_PAWN_BONUS = 0.2`, scaled by rank advancement over 6). -/
def passed_pawn_raw (b : BoardU) : ℚ :=
  ((b.pawn_squares true).map (fun sq =>
    if is_passed_pawn b sq true then (0.2 : ℚ) * ((square_rank sq : ℚ) / 6) else 0)).sum +
  ((b.pawn_squares false).map (fun sq =>
    if is_passed_pawn b sq false then -((0.2 : ℚ) * ((((7 : ℤ) - square_rank sq : ℤ) : ℚ) / 6)) else 0)).sum

/-- `passed_pawn_score(board, perspective_color)` of evaluation.py. -/
def passed_pawn_score (b : BoardU) (p : Bool) : ℚ :=
  if p then passed_pawn_raw b else -passed_pawn_raw b

/-- `CENTER4`: D4, E4, D5, E5. -/
def center4 : List ℤ := [27, 28, 35, 36]

/-- `EXTENDED_CENTER`: files C-F, ranks 3-6. -/
def extended_center : List ℤ :=
  [18, 19, 20, 21, 26, 27, 28, 29, 34, 35, 36, 37, 42, 43, 44, 45]

/-- `center_control` of evaluation.py, White-relative part
(`CENTER_CONTROL_WEIGHT = 0.1`). -/
def center_control_raw (b : BoardU) (squares : List ℤ) : ℚ :=
  ((((squares.map (fun sq => b.attackers_count true sq)).sum : ℕ) : ℚ) -
      (((squares.map (fun sq => b.attackers_count false sq)).sum : ℕ) : ℚ)) * (0.1 : ℚ)

/-- `center_control(board, perspective_color, squares)` of evaluation.py. -/
def center_control (b : BoardU) (p : Bool) (squares : List ℤ) : ℚ :=
  if p then center_control_raw b squares else -center_control_raw b squares

/-- `open_file_and_shield_penalty` of evaluation.py
(`KING_OPEN_FILE_PENALTY = -0.2`, `PAWN_SHIELD_PENALTY = -0.1`). -/
def open_file_and_shield_penalty (b : BoardU) (king_square : ℤ) (color : Bool) : ℚ :=
  let king_file := square_file king_square
  let file_part : ℚ :=
    ([king_file - 1, king_file, king_file + 1].map (fun f =>
      if 0 ≤ f ∧ f ≤ 7 then
        (if (((List.range 8).map Int.ofNat).map (fun r => square_at f r)).any
            (fun sq => b.piece_type_at sq == some Piece.pawn && b.color_at sq == some color)
         then 0 else (-0.2 : ℚ))
      else 0)).sum
  let forward : ℤ := if color then 1 else -1
  let target_rank := square_rank king_square + forward
  let shield_part : ℚ :=
    if 0 ≤ target_rank ∧ target_rank ≤ 7 then
      ((([king_file - 1, king_file, king_file + 1].filter (fun f => decide (0 ≤ f) && decide (f ≤ 7))).map
        (fun f => square_at f target_rank)).map (fun sq =>
          if b.piece_type_at sq ≠ some Piece.pawn ∨ b.color_at sq ≠ some color
          then (-0.1 : ℚ) else 0)).sum
    else 0
  file_part + shield_part

/-- `king_safety` of evaluation.py, White-relative part
(`KING_CASTLE_BONUS = 0.25`). -/
def king_safety_raw (b : BoardU) : ℚ :=
  (if b.has_kingside_castling true then (0.25 : ℚ) else 0) +
    (if b.has_queenside_castling true then (0.25 : ℚ) else 0) +
    (if b.has_kingside_castling false then -(0.25 : ℚ) else 0) +
    (if b.has_queenside_castling false then -(0.25 : ℚ) else 0) +
    (match b.king_sq true with
     | some k => open_file_and_shield_penalty b k true
     | none => 0) +
    (match b.king_sq false with
     | some k => -open_file_and_shield_penalty b k false
     | none => 0)

/-- `king_safety(board, perspective_color)` of evaluation.py. -/
def king_safety (b : BoardU) (p : Bool) : ℚ :=
  if p then king_safety_raw b else -king_safety_raw b

/-- `mobility_score` of evaluation.py, White-relative part: the source
temporarily sets `board.turn` to each color and counts legal moves, which is
what the `legal_move_count` field records. -/
def mobility_raw (b : BoardU) : ℚ :=
  ((b.legal_move_count true : ℚ) - (b.legal_move_count false : ℚ)) * (0.05 : ℚ)

/-- `mobility_score(board, perspective_color)` of evaluation.py. -/
def mobility_score (b : BoardU) (p : Bool) : ℚ :=
  if p then mobility_raw b else -mobility_raw b

/-- `mvv_lva_score` of evaluation.py, evaluated on the pre-move board
(`move_bonus` pops the move before calling it). -/
def mvv_lva_score (m : LastMoveU) : ℚ :=
  if m.pre_is_capture = false then 0
  else
    let victim := if m.pre_victim = none ∧ m.pre_is_en_passant then some Piece.pawn
      else m.pre_victim
    match victim with
    | none => 0
    | some v =>
      piece_value v * 10 -
        (match m.pre_attacker with
         | some a => piece_value a
         | none => 1)

/-- `move_bonus` of evaluation.py, White-relative plus the final perspective
flip: the side that just moved is `not board.turn`
(`MOVE_CHECK_BONUS = 0.3`). -/
def move_bonus (b : BoardU) (p : Bool) : ℚ :=
  match b.last_move with
  | none => 0
  | some m =>
    let bonus : ℚ :=
      (if m.post_is_capture then mvv_lva_score m else 0) +
        (if m.gives_check then (0.3 : ℚ) else 0) +
        (match m.promotion with
         | some pr => piece_value pr - piece_value .pawn
         | none => 0)
    if (!b.turn) ≠ p then -bonus else bonus

/-- The keyword toggles of `evaluate`, with the Python default values. -/
structure EvalToggles where
  include_move_bonus : Bool := false
  use_material : Bool := true
  use_bishop_pair : Bool := true
  use_passed_pawns : Bool := true
  use_center_basic : Bool := false
  use_center_extended : Bool := true
  use_king_safety : Bool := true
  use_mobility : Bool := true
deriving DecidableEq, Repr

/-- `evaluate(board, perspective_color, ...)` of evaluation.py (lines
50-103): terminal conditions first (checkmate is `inf` with the sign chosen
by whether the checkmated side to move is the perspective; stalemate and
insufficient material are `0.0`), then the toggled weighted feature sum. -/
def evaluate (b : BoardU) (p : Bool) (t : EvalToggles) : EScore :=
  if b.is_checkmate then (if b.turn ≠ p then pinf else ninf)
  else if b.is_stalemate ∨ b.is_insufficient_material then fin 0
  else fin (
    (if t.use_material then material_balance b p else 0) +
    (if t.use_bishop_pair then bishop_pair_bonus b p else 0) +
    (if t.use_passed_pawns then passed_pawn_score b p else 0) +
    (if t.use_center_extended then center_control b p extended_center
     else if t.use_center_basic then center_control b p center4 else 0) +
    (if t.use_king_safety then king_safety b p else 0) +
    (if t.use_mobility then mobility_score b p else 0) +
    (if t.include_move_bonus ∧ b.last_move.isSome then move_bonus b p else 0))

/-- The toggle set of `quick_evaluate` (evaluation.py lines 106-128). -/
def quick_toggles : EvalToggles :=
  { include_move_bonus := false, use_material := true, use_bishop_pair := true,
    use_passed_pawns := false, use_center_basic := true, use_center_extended := false,
    use_king_safety := false, use_mobility := false }

/-- `quick_evaluate(board, perspective_color)` of evaluation.py. -/
def quick_evaluate (b : BoardU) (p : Bool) : EScore := evaluate b p quick_toggles

/-! ### Perspective antisymmetry of the evaluator -/

theorem neg_ite (c : Prop) [Decidable c] (x y : ℚ) :
    -(if c then x else y) = if c then -x else -y := by
  split <;> rfl

theorem material_balance_flip (b : BoardU) (p : Bool) :
    material_balance b (!p) = -material_balance b p := by
  cases p <;> simp [material_balance]

theorem bishop_pair_bonus_flip (b : BoardU) (p : Bool) :
    bishop_pair_bonus b (!p) = -bishop_pair_bonus b p := by
  cases p <;> simp [bishop_pair_bonus]

theorem passed_pawn_score_flip (b : BoardU) (p : Bool) :
    passed_pawn_score b (!p) = -passed_pawn_score b p := by
  cases p <;> simp [passed_pawn_score]

theorem center_control_flip (b : BoardU) (p : Bool) (squares : List ℤ) :
    center_control b (!p) squares = -center_control b p squares := by
  cases p <;> simp [center_control]

theorem king_safety_flip (b : BoardU) (p : Bool) :
    king_safety b (!p) = -king_safety b p := by
  cases p <;> simp [king_safety]

theorem mobility_score_flip (b : BoardU) (p : Bool) :
    mobility_score b (!p) = -mobility_score b p := by
  cases p <;> simp [mobility_score]

theorem move_bonus_flip (b : BoardU) (p : Bool) :
    move_bonus b (!p) = -move_bonus b p := by
  cases hm : b.last_move with
  | none => simp [move_bonus, hm]
  | some m => cases hb : b.turn <;> cases p <;> simp [move_bonus, hm, hb]

/-- C2: For every non-terminal, non-draw position and every perspective, the
static evaluator is antisymmetric in the perspective with the same feature
toggles on both calls: `evaluate(p, A) == -evaluate(p, not A)`. -/
theorem evaluate_antisymmetric (b : BoardU) (p : Bool) (t : EvalToggles)
    (h1 : b.is_checkmate = false) (h2 : b.is_stalemate = false)
    (h3 : b.is_insufficient_material = false) :
    evaluate b p t = eneg (evaluate b (!p) t) := by
  simp only [evaluate, h1, h2, h3, Bool.false_eq_true, if_false, or_self, eneg]
  congr 1
  rw [material_balance_flip, bishop_pair_bonus_flip, passed_pawn_score_flip,
    center_control_flip, center_control_flip, king_safety_flip, mobility_score_flip,
    move_bonus_flip]
  simp only [neg_add, neg_ite, neg_neg, neg_zero]

/-- C2 witness: a concrete non-terminal position on which the antisymmetry
theorem applies and evaluates. -/
def sample_board : BoardU where
  is_checkmate := false
  is_stalemate := false
  is_insufficient_material := false
  turn := true
  piece_count := fun pt c =>
    match pt, c with
    | .king, _ => 1
    | .pawn, true => 2
    | .pawn, false => 1
    | .bishop, true => 2
    | .rook, false => 1
    | _, _ => 0
  pawn_squares := fun c => if c then [12, 35] else [51]
  attackers_count := fun c sq => if c ∧ sq = 28 then 2 else if sq = 35 then 1 else 0
  has_kingside_castling := fun c => c
  has_queenside_castling := fun _ => false
  king_sq := fun c => if c then some 4 else some 60
  piece_type_at := fun sq =>
    if sq = 12 ∨ sq = 35 ∨ sq = 51 then some Piece.pawn
    else if sq = 4 ∨ sq = 60 then some Piece.king
    else if sq = 2 ∨ sq = 5 then some Piece.bishop
    else if sq = 56 then some Piece.rook else none
  color_at := fun sq =>
    if sq = 12 ∨ sq = 35 ∨ sq = 4 ∨ sq = 2 ∨ sq = 5 then some true
    else if sq = 51 ∨ sq = 60 ∨ sq = 56 then some false else none
  legal_move_count := fun c => if c then 17 else 12
  last_move := some
    { promotion := none, post_is_capture := true, gives_check := false,
      pre_is_capture := true, pre_victim := some Piece.pawn,
      pre_is_en_passant := false, pre_attacker := some Piece.bishop }

theorem evaluate_antisymmetric_witness :
    sample_board.is_checkmate = false ∧ sample_board.is_stalemate = false ∧
      sample_board.is_insufficient_material = false ∧
      evaluate sample_board true { include_move_bonus := true } =
        EScore.eneg (evaluate sample_board false { include_move_bonus := true }) :=
  ⟨rfl, rfl, rfl,
    evaluate_antisymmetric sample_board true { include_move_bonus := true } rfl rfl rfl⟩

/-- C8: The evaluator is deterministic on terminal positions: a checkmate
position evaluates to `inf` from the winning side (the side that just
moved, `not turn`) and `-inf` from the losing side to move, and a stalemate
or insufficient-material position (not checkmate) evaluates to `0.0` from
either perspective, for any feature toggles. -/
theorem evaluate_terminal (b : BoardU) (t : EvalToggles) :
    (b.is_checkmate = true →
      evaluate b (!b.turn) t = pinf ∧ evaluate b b.turn t = ninf) ∧
    (b.is_checkmate = false →
      b.is_stalemate = true ∨ b.is_insufficient_material = true →
      ∀ p : Bool, evaluate b p t = fin 0) := by
  constructor
  · intro hcm
    cases hb : b.turn <;> simp [evaluate, hcm, hb]
  · intro hcm hdraw p
    rcases hdraw with hd | hd <;> simp [evaluate, hcm, hd]

/-- C8 witness: a checkmate position (Black to move is mated) and a
stalemate position, evaluated concretely through the theorem. -/
def mate_board : BoardU :=
  { sample_board with is_checkmate := true, turn := false }

def stalemate_board : BoardU :=
  { sample_board with is_stalemate := true }

theorem evaluate_terminal_witness :
    mate_board.is_checkmate = true ∧
      (evaluate mate_board (!mate_board.turn) {} = pinf ∧
        evaluate mate_board mate_board.turn {} = ninf) ∧
      stalemate_board.is_checkmate = false ∧ stalemate_board.is_stalemate = true ∧
      evaluate stalemate_board true {} = fin 0 :=
  ⟨rfl, (evaluate_terminal mate_board {}).1 rfl, rfl, rfl,
    (evaluate_terminal stalemate_board {}).2 rfl (Or.inl rfl) true⟩

/-!
## Pre-search resignation checks (minimax.py lines 19-22, mcts/agent.py lines 66-69)

`MinimaxAgent.get_move` resigns (returns a null move) before searching when
`evaluate(board, board.turn) < -resign_threshold`.  `MCTSAgent.get_move`
begins with `if material_balance(board) > self.config.resign_threshold`,
where the name `material_balance` is bound by the module-level
`from chesag.evaluation import material_balance` statement (agent.py
line 6) — a function of two positional
parameters `(board, perspective_color)` with no defaults.  The one-argument
call therefore raises `TypeError` before any comparison: the MCTS agent
crashes at its first line instead of performing a resignation check.
-/

/-- The default keyword toggles of `evaluate`, used by the resignation check
of `MinimaxAgent.get_move`. -/
def default_toggles : EvalToggles := {}

/-- The pre-search resignation condition of `MinimaxAgent.get_move`
(minimax.py line 21). -/
def minimax_resigns (b : BoardU) (threshold : ℚ) : Bool :=
  decide (evaluate b b.turn default_toggles < fin (-threshold))

/-- The callable bound to the name `material_balance` at agent.py line 68:
`evaluation.material_balance(board, perspective_color)`, two positional
parameters with no defaults.  The argument record carries the perspective
argument as an `Option`; the arity check of the call raises `TypeError`
when it is not supplied. -/
def call_material_balance (b : BoardU) (persp : Option Bool) : Except String ℚ :=
  match persp with
  | some p => Except.ok (material_balance b p)
  | none => Except.error "TypeError"

/-- The pre-search gate of `MCTSAgent.get_move` (agent.py line 68): compare
`material_balance(board)` — a one-argument call of the imported
two-argument function — against the resignation threshold.  The call raises
before the comparison can happen. -/
def mcts_resign_gate (b : BoardU) (threshold : ℚ) : Except String Bool :=
  (call_material_balance b none).map (fun mb => decide (threshold < mb))

/-- The resignation condition claimed by the specification: evaluator score
from the side to move below `-resignThreshold`. -/
def spec_resign_condition (b : BoardU) (threshold : ℚ) : Bool :=
  decide (evaluate b b.turn default_toggles < fin (-threshold))

/-- A position where White, to move, is down a queen and a rook: the
evaluator score from the side to move is far below `-6`, so the claimed
resignation condition holds with threshold 6. -/
def losing_board : BoardU where
  is_checkmate := false
  is_stalemate := false
  is_insufficient_material := false
  turn := true
  piece_count := fun pt c =>
    match pt, c with
    | .king, _ => 1
    | .queen, false => 1
    | .rook, false => 1
    | _, _ => 0
  pawn_squares := fun _ => []
  attackers_count := fun _ _ => 0
  has_kingside_castling := fun _ => false
  has_queenside_castling := fun _ => false
  king_sq := fun c => if c then some 4 else some 60
  piece_type_at := fun sq =>
    if sq = 4 ∨ sq = 60 then some Piece.king
    else if sq = 59 then some Piece.queen
    else if sq = 56 then some Piece.rook else none
  color_at := fun sq =>
    if sq = 4 then some true
    else if sq = 60 ∨ sq = 59 ∨ sq = 56 then some false else none
  legal_move_count := fun c => if c then 5 else 30
  last_move := none

/-- C9 counterexample: with `resign_threshold = 6`, the claimed condition
(evaluator score below `-6` from the side to move) holds on `losing_board`,
but the MCTS agent's actual pre-search check does not resign there — the
MCTS check is not the claimed predicate. -/
theorem EScore.fin_lt_fin_iff {a b : ℚ} : fin a < fin b ↔ a < b := by
  rw [lt_iff_le_not_le, lt_iff_le_not_le]
  simp [le_def, ele]

/-- The concrete evaluator score of `losing_board` from the side to move:
material `-14.6`, king-safety terms cancelling, mobility `-1.25`. -/
theorem losing_board_evaluation :
    evaluate losing_board true default_toggles = fin (-317 / 20) := by
  simp only [evaluate, default_toggles, material_balance, material_raw, piece_types,
    piece_value, bishop_pair_bonus, bishop_pair_raw, passed_pawn_score, passed_pawn_raw,
    center_control, center_control_raw, extended_center, center4,
    king_safety, king_safety_raw, open_file_and_shield_penalty, square_file, square_rank,
    square_at, mobility_score, mobility_raw, losing_board, move_bonus]
  norm_num [List.range_succ, is_passed_pawn]
  simp
  norm_num

/-- C9: the MCTS agent's pre-search resignation check never runs: for every
position and every threshold its gate raises `TypeError` (the one-argument
call of the imported two-argument `material_balance`), so the gate is never
the claimed predicate.  The minimax agent's check does implement the
claimed predicate, and on the failing input `losing_board` with threshold 6
the claimed condition holds (the evaluator score from the side to move,
`-15.85`, is below `-6`) while the MCTS agent crashes before deciding
anything. -/
theorem mcts_resign_gate_raises :
    (∀ (b : BoardU) (q : ℚ), mcts_resign_gate b q = Except.error "TypeError") ∧
      (∀ (b : BoardU) (q : ℚ), minimax_resigns b q = spec_resign_condition b q) ∧
      spec_resign_condition losing_board 6 = true := by
  refine ⟨fun b q => rfl, fun b q => rfl, ?_⟩
  apply decide_eq_true
  show evaluate losing_board losing_board.turn default_toggles < fin (-6)
  have ht : losing_board.turn = true := rfl
  rw [ht, losing_board_evaluation, EScore.fin_lt_fin_iff]
  norm_num

/-!
## MCTS child selection (src/chesag/agents/mcts/node.py lines 97-122)

`Node.select_child` consumes each child only through its `visits`, its
cumulative `value` and the parent's `visits`; `SChild` additionally records
the static move score that the specification's prior would consume (the
source never reads it).  The score arithmetic of the source runs on floats
through `math.sqrt`/`math.log`, embedded here over the reals; `Real.log 0 = 0`
stands in for the (never-reached, since selection only runs on visited
parents) `math.log(0)` domain error.
-/

/-- A materialized child as consumed by selection: visit count, cumulative
value, and the prioritizer's static score for its move. -/
structure SChild where
  visits : ℕ
  value : ℚ
  static_score : ℚ
deriving DecidableEq, Repr

/-- The UCB1 score the source computes for a visited child:
`value/visits + c_puct * sqrt(log(parent_visits) / child_visits)`. -/
noncomputable def ucb_score (parent_visits : ℕ) (c_puct : ℝ) (ch : SChild) : ℝ :=
  (ch.value : ℝ) / (ch.visits : ℝ) +
    c_puct * Real.sqrt (Real.log (parent_visits : ℝ) / (ch.visits : ℝ))

/-- The zero-visit scan of `select_child`: the first child with no visits is
returned immediately. -/
def first_zero_visit (cs : List SChild) : Option SChild :=
  cs.find? (fun ch => ch.visits == 0)

/-- The best-score loop of `select_child`: strict improvement over the
running best (initially `-inf`, so the first child always becomes best). -/
noncomputable def select_child_loop (parent_visits : ℕ) (c_puct : ℝ) :
    List SChild → Option (SChild × ℝ) → Option SChild
  | [], best => best.map Prod.fst
  | ch :: rest, none =>
    select_child_loop parent_visits c_puct rest (some (ch, ucb_score parent_visits c_puct ch))
  | ch :: rest, some (bm, bs) =>
    if bs < ucb_score parent_visits c_puct ch then
      select_child_loop parent_visits c_puct rest (some (ch, ucb_score parent_visits c_puct ch))
    else select_child_loop parent_visits c_puct rest (some (bm, bs))

/-- `Node.select_child`: raise (`none`) on no children, else return the
first zero-visit child if any, else the best child under `ucb_score`. -/
noncomputable def select_child (parent_visits : ℕ) (c_puct : ℝ)
    (cs : List SChild) : Option SChild :=
  if cs = [] then none
  else
    match first_zero_visit cs with
    | some ch => some ch
    | none => select_child_loop parent_visits c_puct cs none

/-- Modelled from the spec: `sigmoid(x) = 1 / (1 + exp(-x))`. -/
noncomputable def sigmoid (x : ℝ) : ℝ := 1 / (1 + Real.exp (-x))

/-- Modelled from the spec: the claimed selection score
`exploitation + exploration` with `exploitation = value/visits`,
`prior = sigmoid(staticMoveScore/2)` and
`exploration = c * prior * sqrt(parentVisits) / (1 + childVisits)`. -/
noncomputable def spec_puct_score (parent_visits : ℕ) (c : ℝ) (ch : SChild) : ℝ :=
  (ch.value : ℝ) / (ch.visits : ℝ) +
    c * sigmoid ((ch.static_score : ℝ) / 2) * Real.sqrt (parent_visits : ℝ) /
      (1 + (ch.visits : ℝ))

/-- First counterexample child: one visit, value `1/4`, static score `0`. -/
def sel_child_a : SChild := ⟨1, 1/4, 0⟩

/-- Second counterexample child: one visit, value `0`, static score `4`. -/
def sel_child_b : SChild := ⟨1, 0, 4⟩

/-- C3 counterexample: on a parent with 16 visits and `c = 1`, both children
visited once, `select_child` picks `sel_child_a` (its UCB1 exploration terms
are equal, so the higher exploitation wins), yet under the specification's
formula `sel_child_b` scores strictly higher (the equal exploitation gap
`1/4` is beaten by the prior gap `sigmoid(2) - sigmoid(0) >= 1/4` times
`c * sqrt(16)/(1+1) = 2`): the selected child does not maximize the claimed
score. -/
theorem select_child_not_spec_puct :
    select_child 16 1 [sel_child_a, sel_child_b] = some sel_child_a ∧
      spec_puct_score 16 1 sel_child_a < spec_puct_score 16 1 sel_child_b := by
  have hsqrt16 : Real.sqrt 16 = 4 := by
    rw [show (16 : ℝ) = 4 ^ 2 by norm_num]
    exact Real.sqrt_sq (by norm_num)
  constructor
  · have hnot : ¬ (ucb_score 16 1 sel_child_a < ucb_score 16 1 sel_child_b) := by
      rw [not_lt]
      simp only [ucb_score, sel_child_a, sel_child_b]
      push_cast
      norm_num
    simp only [select_child]
    rw [if_neg (by simp : ¬ ([sel_child_a, sel_child_b] = []))]
    rw [show first_zero_visit [sel_child_a, sel_child_b] = none from rfl]
    simp only [select_child_loop]
    rw [if_neg hnot]
    rfl
  · have hexp2 : (3 : ℝ) ≤ Real.exp 2 := by
      have h := Real.add_one_le_exp (2 : ℝ)
      linarith
    have hexpneg : Real.exp (-2) ≤ 1 / 3 := by
      rw [Real.exp_neg]
      calc (Real.exp 2)⁻¹ ≤ (3 : ℝ)⁻¹ := inv_anti₀ (by norm_num) hexp2
        _ = 1 / 3 := by norm_num
    have hden : (0 : ℝ) < 1 + Real.exp (-2) := by
      have := Real.exp_pos (-2)
      linarith
    have hsig : (3 / 4 : ℝ) ≤ sigmoid 2 := by
      rw [sigmoid, le_div_iff₀ hden]
      nlinarith [hexpneg]
    have ha : spec_puct_score 16 1 sel_child_a = 5 / 4 := by
      simp only [spec_puct_score, sel_child_a, sigmoid]
      push_cast
      rw [hsqrt16]
      norm_num [Real.exp_zero]
    have hb : spec_puct_score 16 1 sel_child_b = 2 * sigmoid 2 := by
      simp only [spec_puct_score, sel_child_b]
      push_cast
      rw [hsqrt16]
      norm_num
      ring
    rw [ha, hb]
    linarith [hsig]

/-- Invariant of the best-score loop: the result comes from the running best
or the remaining list, and its score dominates every remaining child and the
running best. -/
theorem select_child_loop_spec (pv : ℕ) (c : ℝ) :
    ∀ (cs : List SChild) (best : Option (SChild × ℝ)) (ch : SChild),
    (∀ p : SChild × ℝ, best = some p → ucb_score pv c p.1 = p.2) →
    select_child_loop pv c cs best = some ch →
    ((∃ s, best = some (ch, s)) ∨ ch ∈ cs) ∧
      (∀ y ∈ cs, ucb_score pv c y ≤ ucb_score pv c ch) ∧
      (∀ p : SChild × ℝ, best = some p → p.2 ≤ ucb_score pv c ch) := by
  intro cs
  induction cs with
  | nil =>
    intro best ch hrec hres
    cases best with
    | none => simp [select_child_loop] at hres
    | some p =>
      obtain ⟨bm, bs⟩ := p
      simp only [select_child_loop, Option.map_some'] at hres
      rw [Option.some.injEq] at hres
      subst hres
      refine ⟨Or.inl ⟨bs, rfl⟩, by simp, ?_⟩
      intro p hp
      rw [Option.some.injEq] at hp
      rw [← hp]
      exact le_of_eq (hrec (bm, bs) rfl).symm
  | cons c0 rest ih =>
    intro best ch hrec hres
    cases best with
    | none =>
      simp only [select_child_loop] at hres
      obtain ⟨h1, h2, h3⟩ := ih (some (c0, ucb_score pv c c0)) ch
        (by intro p hp; rw [Option.some.injEq] at hp; rw [← hp]) hres
      refine ⟨Or.inr ?_, ?_, by intro p hp; cases hp⟩
      · rcases h1 with ⟨s, hs⟩ | hmem
        · rw [Option.some.injEq, Prod.mk.injEq] at hs
          obtain ⟨hc, -⟩ := hs
          subst hc
          exact List.mem_cons_self c0 rest
        · exact List.mem_cons_of_mem c0 hmem
      · intro y hy
        rcases List.mem_cons.mp hy with hy0 | hyr
        · subst hy0
          exact h3 (y, ucb_score pv c y) rfl
        · exact h2 y hyr
    | some p =>
      obtain ⟨bm, bs⟩ := p
      have hbs : ucb_score pv c bm = bs := hrec (bm, bs) rfl
      simp only [select_child_loop] at hres
      by_cases hlt : bs < ucb_score pv c c0
      · rw [if_pos hlt] at hres
        obtain ⟨h1, h2, h3⟩ := ih (some (c0, ucb_score pv c c0)) ch
          (by intro p hp; rw [Option.some.injEq] at hp; rw [← hp]) hres
        have hc0 : ucb_score pv c c0 ≤ ucb_score pv c ch :=
          h3 (c0, ucb_score pv c c0) rfl
        refine ⟨Or.inr ?_, ?_, ?_⟩
        · rcases h1 with ⟨s, hs⟩ | hmem
          · rw [Option.some.injEq, Prod.mk.injEq] at hs
            obtain ⟨hc, -⟩ := hs
            subst hc
            exact List.mem_cons_self c0 rest
          · exact List.mem_cons_of_mem c0 hmem
        · intro y hy
          rcases List.mem_cons.mp hy with hy0 | hyr
          · subst hy0
            exact hc0
          · exact h2 y hyr
        · intro p hp
          rw [Option.some.injEq] at hp
          rw [← hp]
          exact le_trans hlt.le hc0
      · rw [if_neg hlt] at hres
        obtain ⟨h1, h2, h3⟩ := ih (some (bm, bs)) ch
          (by intro p hp; rw [Option.some.injEq] at hp; rw [← hp]; exact hbs) hres
        have hbm : bs ≤ ucb_score pv c ch := h3 (bm, bs) rfl
        refine ⟨?_, ?_, ?_⟩
        · rcases h1 with ⟨s, hs⟩ | hmem
          · exact Or.inl ⟨s, hs⟩
          · exact Or.inr (List.mem_cons_of_mem c0 hmem)
        · intro y hy
          rcases List.mem_cons.mp hy with hy0 | hyr
          · subst hy0
            exact le_trans (not_lt.mp hlt) hbm
          · exact h2 y hyr
        · intro p hp
          rw [Option.some.injEq] at hp
          rw [← hp]
          exact hbm

/-- C3 amended: `select_child` first returns the first materialized child
with zero visits if one exists; otherwise the returned child is a member of
the children list that maximizes the UCB1 score
`value/visits + c * sqrt(log(parentVisits)/childVisits)` actually computed
by the source — the specification's sigmoid-prior/`sqrt(N)/(1+n)` formula is
not used. -/
theorem select_child_amended (pv : ℕ) (c : ℝ) (cs : List SChild) (ch : SChild)
    (h : select_child pv c cs = some ch) :
    (match first_zero_visit cs with
     | some z => ch = z
     | none => ch ∈ cs ∧ ∀ y ∈ cs, ucb_score pv c y ≤ ucb_score pv c ch) := by
  rw [select_child] at h
  by_cases hnil : cs = []
  · rw [if_pos hnil] at h
    cases h
  · rw [if_neg hnil] at h
    cases hfz : first_zero_visit cs with
    | some z =>
      rw [hfz] at h
      rw [Option.some.injEq] at h
      exact h.symm
    | none =>
      rw [hfz] at h
      obtain ⟨h1, h2, -⟩ := select_child_loop_spec pv c cs none ch
        (by intro p hp; cases hp) h
      rcases h1 with ⟨s, hs⟩ | hmem
      · cases hs
      · exact ⟨hmem, h2⟩

/-- C3 witness: on a single zero-visit child the amended theorem applies and
the selection is that child. -/
theorem select_child_amended_witness :
    select_child 5 1 [(⟨0, 0, 0⟩ : SChild)] = some (⟨0, 0, 0⟩ : SChild) ∧
      (match first_zero_visit [(⟨0, 0, 0⟩ : SChild)] with
       | some z => (⟨0, 0, 0⟩ : SChild) = z
       | none => (⟨0, 0, 0⟩ : SChild) ∈ [(⟨0, 0, 0⟩ : SChild)] ∧
           ∀ y ∈ [(⟨0, 0, 0⟩ : SChild)],
             ucb_score 5 1 y ≤ ucb_score 5 1 (⟨0, 0, 0⟩ : SChild)) :=
  ⟨rfl, select_child_amended 5 1 [⟨0, 0, 0⟩] ⟨0, 0, 0⟩ rfl⟩

/-!
## Transposition cache (src/chesag/agents/mcts/algorithm.py)

`CachedNode` and the `fen -> CachedNode` transposition table.  The table is
embedded as an association list with position fingerprints abstracted to
naturals; `MCTSSearcher.simulate` never exercises the LRU eviction of
`cachetools.LRUCache` (capacity 20000) in the behaviour under claim, so
lookup/assignment suffice.
-/

/-- `CachedNode` (algorithm.py lines 21-31). -/
structure CachedNode where
  value : ℚ
  visits : ℕ
deriving DecidableEq, Repr

/-- `CachedNode.score = value / visits`. -/
def CachedNode.score (c : CachedNode) : ℚ := c.value / c.visits

/-- The transposition table: fingerprint to cached node. -/
abbrev Cache := List (ℕ × CachedNode)

/-- Dictionary lookup `table.get(fen)`. -/
def cache_get (c : Cache) (fen : ℕ) : Option CachedNode :=
  match c with
  | [] => none
  | (k, v) :: rest => if k = fen then some v else cache_get rest fen

/-- Dictionary assignment `table[fen] = v` (replace or append). -/
def cache_set (c : Cache) (fen : ℕ) (v : CachedNode) : Cache :=
  match c with
  | [] => [(fen, v)]
  | (k, w) :: rest => if k = fen then (fen, v) :: rest else (k, w) :: cache_set rest fen v

theorem cache_get_set_self (c : Cache) (fen : ℕ) (v : CachedNode) :
    cache_get (cache_set c fen v) fen = some v := by
  induction c with
  | nil => simp [cache_set, cache_get]
  | cons kv rest ih =>
    obtain ⟨k, w⟩ := kv
    by_cases hk : k = fen
    · simp [cache_set, cache_get, hk]
    · simp [cache_set, cache_get, hk, ih]

/-!
### Position data and the rollout

The simulation step consumes the node's position through `is_game_over()`,
`board.evaluation()`, `board.fen()`, the prioritizer-ordered legal move
list (used by the tree operations further below) and `Node.rollout`.
`Game` records the results of those queries for a position together with
the positions its ordered legal moves reach. -/
inductive Game : Type where
  | mk (over : Bool) (fen : ℕ) (tv : ℚ) (rv : ℕ → ℚ) (moves : List Game) : Game

/-- `board.is_game_over()`. -/
def Game.over : Game → Bool
  | .mk o _ _ _ _ => o

/-- `board.fen()`, the position fingerprint, abstracted to a natural. -/
def Game.fen : Game → ℕ
  | .mk _ f _ _ _ => f

/-- `ExtendedBoard.evaluation()`, the terminal verdict of the position. -/
def Game.tv : Game → ℚ
  | .mk _ _ t _ _ => t

/-- The spec-modelled rollout verdict from this position for each outcome of
the random draws (see `rollout`). -/
def Game.rv : Game → ℕ → ℚ
  | .mk _ _ _ r _ => r

/-- The positions reached by the prioritizer-ordered legal moves. -/
def Game.moves : Game → List Game
  | .mk _ _ _ _ ms => ms

/-- Modelled from the spec: `Node.rollout` (node.py lines 124-140).  The
rollout body calls `symmetric_evaluation` (imported at node.py line 9 from
`chesag.evaluation`, which defines no such name),
`HeuristicMovePrioritizer.move_evaluations` (node.py line 145, absent from
move_priority.py) and a one-argument `material_balance` (node.py line 166,
while the imported `evaluation.material_balance` takes two) — repository
code whose only trace under src is these call sites.  The spec defines the
rollout (section 4.4): from the node's position play a bounded randomized
playout, each ply sampling a move from non-negative weights derived from
per-move quick-evaluation scores, stopping early on a terminal position or
on a material-swing threshold, and return the evaluator's verdict at the
final reached position.  For a fixed position that verdict is one rational
per outcome of the random draws; the position data records it as the field
`rv`, indexed by the draw seed, and the claims settled against this model
use only that the rollout returns such a value. -/
def rollout (g : Game) (seed : ℕ) : ℚ := g.rv seed

/-- Embedding of `MCTSSearcher.simulate` (algorithm.py lines 153-182).
Terminal nodes return `board.evaluation()` without touching the table.  With
a table present, a cached entry with `visits >= 200` short-circuits to its
stored value; otherwise the spec-modelled `rollout` verdict for this step's
random seed is returned and the table entry for the fingerprint is assigned
`CachedNode(result, 1)`. -/
def simulate (g : Game) (table : Option Cache) (seed : ℕ) : ℚ × Option Cache :=
  if g.over then (g.tv, table)
  else
    match table with
    | none => (rollout g seed, none)
    | some tbl =>
      match cache_get tbl g.fen with
      | some cached =>
        if cached.visits < 200 then
          (rollout g seed, some (cache_set tbl g.fen ⟨rollout g seed, 1⟩))
        else (cached.value, some tbl)
      | none => (rollout g seed, some (cache_set tbl g.fen ⟨rollout g seed, 1⟩))

/-- A fixed non-terminal position with fingerprint 7 whose rollout verdict
is 1 for seed 0 and 5 for any other seed. -/
def game_x : Game := Game.mk false 7 0 (fun seed => if seed = 0 then 1 else 5) []

/-- C4 counterexample: starting from an empty table, a first encounter rolls
out (seed 0, verdict 1) and creates entry `(1, 1)` for fingerprint 7; a
repeat encounter that rolls out (seed 1, verdict 5) leaves the table with
entry `(5, 1)` — the entry is replaced with a fresh single-visit node, not
updated cumulatively to `(6, 2)`: neither `visits` nor `value`
accumulates. -/
theorem cache_update_not_cumulative :
    (simulate game_x ((simulate game_x (some []) 0).2) 1).2 =
        some [(7, ⟨5, 1⟩)] ∧
      (simulate game_x ((simulate game_x (some []) 0).2) 1).2 ≠
        some [(7, ⟨6, 2⟩)] := by
  constructor
  · rfl
  · intro hc
    rw [show (simulate game_x ((simulate game_x (some []) 0).2) 1).2 =
      some [(7, (⟨5, 1⟩ : CachedNode))] from rfl] at hc
    simp only [Option.some.injEq, List.cons.injEq, Prod.mk.injEq, CachedNode.mk.injEq] at hc
    exact absurd hc.1.2.2 (by norm_num)

/-- C4 amended: with the cache enabled, on a non-terminal leaf whose
fingerprint is either absent from the table or cached with fewer than 200
visits, `simulate` performs the rollout, returns its verdict, and assigns
the table entry for that fingerprint to the fresh node
`(verdict, visits = 1)` — on first encounters this creates the entry, and
on repeat encounters it replaces the existing entry rather than
accumulating value and visits.  Entries with at least 200 visits
short-circuit: their stored value is returned and the table is
unchanged. -/
theorem simulate_cache_behavior (g : Game) (tbl : Cache) (seed : ℕ)
    (hterm : g.over = false)
    (hvis : ∀ e, cache_get tbl g.fen = some e → e.visits < 200) :
    simulate g (some tbl) seed =
      (rollout g seed, some (cache_set tbl g.fen ⟨rollout g seed, 1⟩)) ∧
      cache_get (cache_set tbl g.fen ⟨rollout g seed, 1⟩) g.fen =
        some ⟨rollout g seed, 1⟩ := by
  refine ⟨?_, cache_get_set_self tbl g.fen ⟨rollout g seed, 1⟩⟩
  rw [simulate, if_neg (by rw [hterm]; exact Bool.false_ne_true)]
  cases hg : cache_get tbl g.fen with
  | none => rfl
  | some e => simp [hg, hvis e hg]

/-- A fixed non-terminal position with fingerprint 7 and constant rollout
verdict 2 for the witness. -/
def game_y : Game := Game.mk false 7 0 (fun _ => 2) []

/-- C4 witness: a concrete repeat encounter (entry cached with 5 visits)
through the amended theorem. -/
theorem simulate_cache_witness :
    game_y.over = false ∧
      (∀ e, cache_get [(7, ⟨3, 5⟩)] game_y.fen = some e → e.visits < 200) ∧
      simulate game_y (some [(7, ⟨3, 5⟩)]) 0 =
        (rollout game_y 0,
          some (cache_set [(7, ⟨3, 5⟩)] game_y.fen ⟨rollout game_y 0, 1⟩)) ∧
      cache_get (cache_set [(7, ⟨3, 5⟩)] game_y.fen ⟨rollout game_y 0, 1⟩) game_y.fen =
        some ⟨rollout game_y 0, 1⟩ := by
  have hv : ∀ e, cache_get [(7, ⟨3, 5⟩)] game_y.fen = some e → e.visits < 200 := by
    intro e he
    rw [show cache_get [(7, (⟨3, 5⟩ : CachedNode))] game_y.fen = some ⟨3, 5⟩ from rfl,
      Option.some.injEq] at he
    rw [← he]
    decide
  obtain ⟨h1, h2⟩ := simulate_cache_behavior game_y [(7, ⟨3, 5⟩)] 0 rfl hv
  exact ⟨rfl, hv, h1, h2⟩

/-!
## Cache snapshot loading (algorithm.py lines 49-57)

`MCTSSearcher.load_cache` checks `cache_file.exists()` and returns a fresh
empty `LRUCache` when the file is missing; otherwise it opens the file and
calls `pickle.load` with no exception handler, so an unreadable or malformed
snapshot raises out of `load_cache`.  The filesystem read and unpickling are
represented by the input: `none` = snapshot file missing, `some none` = file
present but its content fails to unpickle, `some (some c)` = file unpickles
to the table `c`; `Except.error` marks the propagating exception. -/
def load_cache : Option (Option Cache) → Except String Cache
  | none => Except.ok []
  | some none => Except.error "UnpicklingError"
  | some (some c) => Except.ok c

/-- C7 counterexample: a present-but-malformed snapshot makes `load_cache`
raise (propagate an unpickling error); it does not yield an empty cache, or
any cache at all. -/
theorem load_cache_raises_on_malformed :
    load_cache (some none) = Except.error "UnpicklingError" ∧
      ∀ c : Cache, load_cache (some none) ≠ Except.ok c :=
  ⟨rfl, fun _ h => Except.noConfusion h⟩

/-- C7 amended: loading with a missing snapshot file returns an empty cache
without raising; a file that unpickles returns its table; but a present file
with unreadable/malformed content raises out of the loader (no handler in
the source). -/
theorem load_cache_behavior :
    load_cache none = Except.ok ([] : Cache) ∧
      (∀ c : Cache, load_cache (some (some c)) = Except.ok c) ∧
      (∃ e, load_cache (some none) = Except.error e) :=
  ⟨rfl, fun _ => rfl, ⟨"UnpicklingError", rfl⟩⟩

/-!
## Result aggregation (src/chesag/agents/mcts/move_selection.py)

Both strategies aggregate worker results given as `(move_uci, visits, value)`
triples.  Python dictionaries are embedded as insertion-ordered association
lists with overwriting assignment.
-/

/-- Dictionary assignment `m[k] = v`: replace the existing binding in place
or append a new one. -/
def dict_set {V : Type} (m : List (String × V)) (k : String) (v : V) :
    List (String × V) :=
  match m with
  | [] => [(k, v)]
  | (k0, v0) :: rest => if k0 = k then (k, v) :: rest else (k0, v0) :: dict_set rest k v

/-- Dictionary lookup. -/
def dict_get {V : Type} (m : List (String × V)) (k : String) : Option V :=
  match m with
  | [] => none
  | (k0, v0) :: rest => if k0 = k then some v0 else dict_get rest k

/-- `m.get(k, d)`. -/
def dict_getD {V : Type} (m : List (String × V)) (k : String) (d : V) : V :=
  (dict_get m k).getD d

theorem dict_get_set_self {V : Type} (m : List (String × V)) (k : String) (v : V) :
    dict_get (dict_set m k v) k = some v := by
  induction m with
  | nil => simp [dict_set, dict_get]
  | cons kv rest ih =>
    obtain ⟨k0, v0⟩ := kv
    by_cases hk : k0 = k
    · simp [dict_set, dict_get, hk]
    · simp [dict_set, dict_get, hk, ih]

theorem dict_get_set_other {V : Type} (m : List (String × V)) (k k2 : String) (v : V)
    (h : k2 ≠ k) : dict_get (dict_set m k2 v) k = dict_get m k := by
  induction m with
  | nil => simp [dict_set, dict_get, h]
  | cons kv rest ih =>
    obtain ⟨k0, v0⟩ := kv
    by_cases hk : k0 = k2
    · subst hk
      simp [dict_set, dict_get, h]
    · simp only [dict_set, if_neg hk]
      by_cases hk0 : k0 = k
      · simp [dict_get, hk0]
      · simp [dict_get, hk0, ih]

/-!
### `MoveSelectorByActionValue.aggregate_results` (move_selection.py lines 122-148)
-/

/-- The accumulation loop: for every result with a truthy (nonempty) move
string and positive visits, add the visits into `move_visits[move]` and the
value into `move_values[move]` (`.get(move, 0) + x` then assignment). -/
def aav_loop : List (String × ℤ × ℚ) → List (String × ℤ) → List (String × ℚ) →
    List (String × ℤ) × List (String × ℚ)
  | [], mv, mval => (mv, mval)
  | (u, v, val) :: rest, mv, mval =>
    if u ≠ "" ∧ 0 < v then
      aav_loop rest (dict_set mv u (dict_getD mv u 0 + v))
        (dict_set mval u (dict_getD mval u 0 + val))
    else aav_loop rest mv mval

/-- `MoveSelectorByActionValue.aggregate_results`: run the loop from empty
dictionaries, then map every accumulated move to
`move_values[move] / move_visits[move]`. -/
def action_value_aggregate (results : List (String × ℤ × ℚ)) : List (String × ℚ) :=
  let acc := aav_loop results [] []
  acc.1.map (fun kv => (kv.1, dict_getD acc.2 kv.1 0 / (kv.2 : ℚ)))

/-- Per-move visit total over the entries the loop keeps. -/
def visit_sum (results : List (String × ℤ × ℚ)) (k : String) : ℤ :=
  ((results.filter (fun e => e.1 = k ∧ e.1 ≠ "" ∧ 0 < e.2.1)).map (fun e => e.2.1)).sum

/-- Per-move value total over the entries the loop keeps. -/
def value_sum (results : List (String × ℤ × ℚ)) (k : String) : ℚ :=
  ((results.filter (fun e => e.1 = k ∧ e.1 ≠ "" ∧ 0 < e.2.1)).map (fun e => e.2.2)).sum

theorem visit_sum_cons_keep (u : String) (v : ℤ) (val : ℚ)
    (rest : List (String × ℤ × ℚ)) (hne : u ≠ "") (hv : 0 < v) :
    visit_sum ((u, v, val) :: rest) u = v + visit_sum rest u := by
  simp [visit_sum, List.filter_cons, hne, hv]

theorem value_sum_cons_keep (u : String) (v : ℤ) (val : ℚ)
    (rest : List (String × ℤ × ℚ)) (hne : u ≠ "") (hv : 0 < v) :
    value_sum ((u, v, val) :: rest) u = val + value_sum rest u := by
  simp [value_sum, List.filter_cons, hne, hv]

theorem visit_sum_cons_drop (k u : String) (v : ℤ) (val : ℚ)
    (rest : List (String × ℤ × ℚ)) (h : ¬ (u = k ∧ u ≠ "" ∧ 0 < v)) :
    visit_sum ((u, v, val) :: rest) k = visit_sum rest k := by
  simp only [visit_sum, List.filter_cons]
  rw [if_neg (by simpa using h)]

theorem value_sum_cons_drop (k u : String) (v : ℤ) (val : ℚ)
    (rest : List (String × ℤ × ℚ)) (h : ¬ (u = k ∧ u ≠ "" ∧ 0 < v)) :
    value_sum ((u, v, val) :: rest) k = value_sum rest k := by
  simp only [value_sum, List.filter_cons]
  rw [if_neg (by simpa using h)]

/-- Running the accumulation loop adds exactly the per-move filtered visit
and value totals to the starting dictionaries. -/
theorem aav_loop_getD (k : String) :
    ∀ (results : List (String × ℤ × ℚ)) (mv : List (String × ℤ))
      (mval : List (String × ℚ)),
    dict_getD (aav_loop results mv mval).1 k 0 = dict_getD mv k 0 + visit_sum results k ∧
      dict_getD (aav_loop results mv mval).2 k 0 =
        dict_getD mval k 0 + value_sum results k := by
  intro results
  induction results with
  | nil =>
    intro mv mval
    simp [aav_loop, visit_sum, value_sum]
  | cons e rest ih =>
    obtain ⟨u, v, val⟩ := e
    intro mv mval
    simp only [aav_loop]
    by_cases hcond : u ≠ "" ∧ 0 < v
    · rw [if_pos hcond]
      obtain ⟨ih1, ih2⟩ := ih (dict_set mv u (dict_getD mv u 0 + v))
        (dict_set mval u (dict_getD mval u 0 + val))
      rw [ih1, ih2]
      by_cases hu : u = k
      · subst hu
        rw [visit_sum_cons_keep u v val rest hcond.1 hcond.2,
          value_sum_cons_keep u v val rest hcond.1 hcond.2]
        unfold dict_getD
        rw [dict_get_set_self, dict_get_set_self]
        constructor
        · simp only [Option.getD_some]
          ring
        · simp only [Option.getD_some]
          ring
      · rw [visit_sum_cons_drop k u v val rest (fun hc => hu hc.1),
          value_sum_cons_drop k u v val rest (fun hc => hu hc.1)]
        unfold dict_getD
        rw [dict_get_set_other _ _ _ _ hu, dict_get_set_other _ _ _ _ hu]
        exact ⟨rfl, rfl⟩
    · rw [if_neg hcond]
      obtain ⟨ih1, ih2⟩ := ih mv mval
      rw [ih1, ih2,
        visit_sum_cons_drop k u v val rest (fun hc => hcond hc.2),
        value_sum_cons_drop k u v val rest (fun hc => hcond hc.2)]
      exact ⟨rfl, rfl⟩

/-- A move ends up among the accumulated keys exactly when it was already
there or some kept entry mentions it. -/
theorem aav_loop_mem (k : String) :
    ∀ (results : List (String × ℤ × ℚ)) (mv : List (String × ℤ))
      (mval : List (String × ℚ)),
    (dict_get (aav_loop results mv mval).1 k).isSome = true ↔
      ((dict_get mv k).isSome = true ∨
        ∃ e ∈ results, e.1 = k ∧ e.1 ≠ "" ∧ 0 < e.2.1) := by
  intro results
  induction results with
  | nil =>
    intro mv mval
    simp [aav_loop]
  | cons e rest ih =>
    obtain ⟨u, v, val⟩ := e
    intro mv mval
    simp only [aav_loop]
    by_cases hcond : u ≠ "" ∧ 0 < v
    · rw [if_pos hcond]
      rw [ih]
      by_cases hu : u = k
      · subst hu
        rw [dict_getD, dict_get_set_self]
        simp only [Option.isSome_some, true_or]
        constructor
        · intro _
          exact Or.inr ⟨(u, v, val), List.mem_cons_self _ _, rfl, hcond.1, hcond.2⟩
        · intro _
          trivial
      · rw [dict_get_set_other _ _ _ _ hu]
        constructor
        · rintro (h | ⟨e2, he2, h2⟩)
          · exact Or.inl h
          · exact Or.inr ⟨e2, List.mem_cons_of_mem _ he2, h2⟩
        · rintro (h | ⟨e2, he2, h2⟩)
          · exact Or.inl h
          · rcases List.mem_cons.mp he2 with rfl | hmem
            · exact absurd h2.1 hu
            · exact Or.inr ⟨e2, hmem, h2⟩
    · rw [if_neg hcond]
      rw [ih]
      constructor
      · rintro (h | ⟨e2, he2, h2⟩)
        · exact Or.inl h
        · exact Or.inr ⟨e2, List.mem_cons_of_mem _ he2, h2⟩
      · rintro (h | ⟨e2, he2, h2⟩)
        · exact Or.inl h
        · rcases List.mem_cons.mp he2 with rfl | hmem
          · exact absurd ⟨h2.2.1, h2.2.2⟩ hcond
          · exact Or.inr ⟨e2, hmem, h2⟩


/-- C6: Merging parallel workers' per-move results sums visit counts per move
(the accumulated `move_visits[k]` equals the per-move visit total over the
kept entries) and the returned dictionary maps each move to its
value-weighted average `sum(values)/sum(visits)` across all workers. -/
theorem action_value_aggregate_correct (results : List (String × ℤ × ℚ)) (k : String)
    (hk : ∃ e ∈ results, e.1 = k ∧ e.1 ≠ "" ∧ 0 < e.2.1) :
    dict_getD (aav_loop results [] []).1 k 0 = visit_sum results k ∧
      dict_get (action_value_aggregate results) k =
        some (value_sum results k / (visit_sum results k : ℚ)) := by
  obtain ⟨h1, h2⟩ := aav_loop_getD k results [] []
  have h0 : dict_getD ([] : List (String × ℤ)) k 0 = 0 := rfl
  have h0q : dict_getD ([] : List (String × ℚ)) k 0 = 0 := rfl
  rw [h0, zero_add] at h1
  rw [h0q, zero_add] at h2
  refine ⟨h1, ?_⟩
  have hmem : (dict_get (aav_loop results [] []).1 k).isSome = true :=
    (aav_loop_mem k results [] []).mpr (Or.inr hk)
  rw [action_value_aggregate]
  have hmap : ∀ (m : List (String × ℤ)),
      dict_get (m.map (fun kv =>
        (kv.1, dict_getD (aav_loop results [] []).2 kv.1 0 / (kv.2 : ℚ)))) k =
      (dict_get m k).map
        (fun n : ℤ => dict_getD (aav_loop results [] []).2 k 0 / (n : ℚ)) := by
    intro m
    induction m with
    | nil => simp [dict_get]
    | cons kv rest ihm =>
      obtain ⟨k0, v0⟩ := kv
      by_cases hk0 : k0 = k
      · subst hk0
        simp [dict_get]
      · simp [dict_get, hk0, ihm]
  rw [hmap]
  cases hg : dict_get (aav_loop results [] []).1 k with
  | none => rw [hg] at hmem; cases hmem
  | some n =>
    have hn : n = visit_sum results k := by
      rw [← h1, dict_getD, hg, Option.getD_some]
    rw [Option.map_some', hn, ← h2]

/-- The worked spec example for C6: two workers reporting
`(moveX, 10, 5.0)` and `(moveX, 5, 1.0)`. -/
def example_results : List (String × ℤ × ℚ) := [("moveX", 10, 5), ("moveX", 5, 1)]

/-- C6 witness: on the spec example, visits merge to 15, values to 6, and
the merged dictionary maps `moveX` to `6/15`. -/
theorem action_value_aggregate_witness :
    (∃ e ∈ example_results, e.1 = "moveX" ∧ e.1 ≠ "" ∧ 0 < e.2.1) ∧
      visit_sum example_results "moveX" = 15 ∧
      value_sum example_results "moveX" = 6 ∧
      dict_getD (aav_loop example_results [] []).1 "moveX" 0 =
        visit_sum example_results "moveX" ∧
      dict_get (action_value_aggregate example_results) "moveX" =
        some (value_sum example_results "moveX" /
          (visit_sum example_results "moveX" : ℚ)) := by
  have hk : ∃ e ∈ example_results, e.1 = "moveX" ∧ e.1 ≠ "" ∧ 0 < e.2.1 :=
    ⟨("moveX", 10, 5), by simp [example_results], rfl, by decide, by decide⟩
  obtain ⟨h1, h2⟩ := action_value_aggregate_correct example_results "moveX" hk
  refine ⟨hk, by decide, ?_, h1, h2⟩
  show value_sum example_results "moveX" = 6
  have hf : example_results.filter
      (fun e => e.1 = "moveX" ∧ e.1 ≠ "" ∧ 0 < e.2.1) = example_results := by
    simp [example_results, List.filter_cons]
  rw [value_sum, hf]
  norm_num [example_results]

/-!
### `MoveSelectorByVisitCount.aggregate_results` (move_selection.py lines 80-94)

The dict comprehension is
`{action: sum(vc for _, vc, _ in results if action == action) for action, _, _ in results}`:
the inner membership test compares the comprehension variable `action` with
itself, so it always passes and every key receives the total visit count of
all entries.
-/

/-- The inner generator sum, with the source's self-comparison `action ==
action` kept as written. -/
def vc_total (action : String) (results : List (String × ℤ × ℚ)) : ℤ :=
  ((results.filter (fun _ => action == action)).map (fun e => e.2.1)).sum

/-- `MoveSelectorByVisitCount.aggregate_results`: one dictionary entry per
result entry, keyed by its move, valued by the generator sum. -/
def visit_count_aggregate (results : List (String × ℤ × ℚ)) : List (String × ℤ) :=
  results.foldl (fun m e => dict_set m e.1 (vc_total e.1 results)) []

theorem vc_total_eq (a : String) (results : List (String × ℤ × ℚ)) :
    vc_total a results = (results.map (fun e => e.2.1)).sum := by
  simp [vc_total]

theorem foldl_dict_set_const (t : ℤ) (k : String) :
    ∀ (rs : List (String × ℤ × ℚ)) (m : List (String × ℤ)),
    (dict_get m k = some t ∨ ∃ e ∈ rs, e.1 = k) →
    dict_get (rs.foldl (fun m e => dict_set m e.1 t) m) k = some t := by
  intro rs
  induction rs with
  | nil =>
    intro m h
    rcases h with h | ⟨e, he, _⟩
    · exact h
    · simp at he
  | cons e rest ih =>
    intro m h
    simp only [List.foldl_cons]
    apply ih
    by_cases hk : e.1 = k
    · left
      rw [hk, dict_get_set_self]
    · rcases h with h | ⟨e2, he2, hk2⟩
      · left
        rw [dict_get_set_other _ _ _ _ hk]
        exact h
      · rcases List.mem_cons.mp he2 with rfl | hmem
        · exact absurd hk2 hk
        · right
          exact ⟨e2, hmem, hk2⟩

/-- C10: For every results list and every move appearing in it, the
visit-count aggregation maps that move to the total visit count of ALL
entries (the per-move membership test always passes), so every key gets one
and the same number. -/
theorem visit_count_aggregate_total (results : List (String × ℤ × ℚ)) (k : String)
    (hk : ∃ e ∈ results, e.1 = k) :
    dict_get (visit_count_aggregate results) k =
      some ((results.map (fun e => e.2.1)).sum) := by
  rw [visit_count_aggregate]
  have hfun : (fun (m : List (String × ℤ)) (e : String × ℤ × ℚ) =>
      dict_set m e.1 (vc_total e.1 results)) =
      (fun m e => dict_set m e.1 ((results.map (fun e => e.2.1)).sum)) := by
    funext m e
    rw [vc_total_eq]
  rw [hfun]
  exact foldl_dict_set_const _ k results [] (Or.inr hk)

/-- Concrete input for the C10 witness: two distinct moves with visit counts
3 and 4. -/
def vc_example : List (String × ℤ × ℚ) := [("a2a4", 3, 1), ("b1c3", 4, 2)]

/-- C10 witness: both moves are mapped to the same total 7 = 3 + 4. -/
theorem visit_count_aggregate_witness :
    (∃ e ∈ vc_example, e.1 = "a2a4") ∧ (∃ e ∈ vc_example, e.1 = "b1c3") ∧
      (vc_example.map (fun e => e.2.1)).sum = 7 ∧
      dict_get (visit_count_aggregate vc_example) "a2a4" =
        some ((vc_example.map (fun e => e.2.1)).sum) ∧
      dict_get (visit_count_aggregate vc_example) "b1c3" =
        some ((vc_example.map (fun e => e.2.1)).sum) := by
  have ha : ∃ e ∈ vc_example, e.1 = "a2a4" := ⟨("a2a4", 3, 1), by simp [vc_example], rfl⟩
  have hb : ∃ e ∈ vc_example, e.1 = "b1c3" := ⟨("b1c3", 4, 2), by simp [vc_example], rfl⟩
  exact ⟨ha, hb, by decide, visit_count_aggregate_total vc_example "a2a4" ha,
    visit_count_aggregate_total vc_example "b1c3" hb⟩

/-!
## MCTS tree operations (src/chesag/agents/mcts/node.py, algorithm.py)

The tree operations consume a position only through `board.copy()`,
`board.push(move)` applied to copies, `is_game_over()`, `fen()`,
`evaluation()` and the prioritizer-ordered legal move list — the queries
`Game` (defined with the simulation step above) records, so deriving a
child node is stepping into a subtree.  `MNode` carries the mutable `Node`
attributes (`visits`, `value`, `is_expanded`, `available_moves`,
`children`); mutation of the shared tree is modelled by rebuilding along
the path of child indices from the root, which is exactly the chain the
parent back-references produce.  Randomized choices (`select_child`,
`random.choice`, and the draws of the spec-modelled rollout) enter as
oracle arguments: every theorem quantifies over all oracles and so covers
every run of the source. -/

/-- A `Node` of node.py: its position, `visits`, cumulative `value`,
`is_expanded` flag, pending `available_moves` queue and materialized
children. -/
inductive MNode : Type where
  | mk (g : Game) (visits : ℕ) (value : ℚ) (is_expanded : Bool)
      (avail : List Game) (children : List MNode) : MNode

def MNode.game : MNode → Game
  | .mk g _ _ _ _ _ => g

def MNode.visits : MNode → ℕ
  | .mk _ v _ _ _ _ => v

def MNode.value : MNode → ℚ
  | .mk _ _ val _ _ _ => val

def MNode.is_expanded : MNode → Bool
  | .mk _ _ _ e _ _ => e

def MNode.avail : MNode → List Game
  | .mk _ _ _ _ a _ => a

def MNode.children : MNode → List MNode
  | .mk _ _ _ _ _ cs => cs

/-- `Node.__init__` for a child node: fresh counters, empty queue and
children (node.py lines 22-43). -/
def MNode.fresh (g : Game) : MNode := .mk g 0 0 false [] []

/-- `Node.is_terminal` (`board.is_game_over()`). -/
def MNode.terminal (n : MNode) : Bool := n.game.over

/-- `Node.expand` (node.py lines 57-88): regenerate the pending queue from
the ordered legal moves when it is empty; on a not-yet-expanded node
materialize the initial batch (`_get_initial_moves`: everything if at most 8
moves are pending, else the first 4); on an expanded node raise the child
cap to `min(pending + materialized, max(4, floor(sqrt(visits))))` and pop
pending moves off the front until the cap is reached.  The `is_expanded`
flag becomes true exactly when the pending queue empties. -/
def expand : MNode → MNode
  | .mk g v val isExp avail children =>
    if g.over then .mk g v val isExp avail children
    else
      let avail1 := if avail.isEmpty then g.moves else avail
      if isExp = false then
        let initial := if avail1.length > 8 then avail1.take 4 else avail1
        let avail2 := avail1.drop initial.length
        .mk g v val avail2.isEmpty avail2 (children ++ initial.map MNode.fresh)
      else
        let cap := min (avail1.length + children.length) (max 4 (Nat.sqrt v))
        let taken := avail1.take (cap - children.length)
        let avail2 := avail1.drop (cap - children.length)
        .mk g v val (if avail2.isEmpty then true else isExp) avail2
          (children ++ taken.map MNode.fresh)

/-- `expand` never touches the visit counter. -/
theorem expand_visits (n : MNode) : (expand n).visits = n.visits := by
  obtain ⟨g, v, val, isExp, avail, children⟩ := n
  rw [expand]
  split
  · rfl
  · split <;> split <;> rfl

/-- Alternating backpropagation sign: a node `k` plies above the simulated
leaf receives `(-1)^k * result` (node.py lines 168-175 negate the result at
every step of the walk towards the root). -/
def sign_for (k : ℕ) (r : ℚ) : ℚ := if k % 2 = 0 then r else -r

mutual

/-- `Node.backpropagate` along the root-to-leaf chain of child indices:
every node on the chain gains one visit, and the value applied at a node
`k` plies above the leaf is `(-1)^k * result`. -/
def backprop : MNode → List ℕ → ℚ → MNode
  | .mk g v val e a cs, [], r => .mk g (v + 1) (val + r) e a cs
  | .mk g v val e a cs, i :: rest, r =>
    .mk g (v + 1) (val + sign_for (rest.length + 1) r) e a (backprop_children cs i rest r)

/-- Apply `backprop` to the child at the given index. -/
def backprop_children : List MNode → ℕ → List ℕ → ℚ → List MNode
  | [], _, _, _ => []
  | c :: cs, 0, rest, r => backprop c rest r :: cs
  | c :: cs, Nat.succ j, rest, r => c :: backprop_children cs j rest r

end

theorem backprop_visits (n : MNode) (path : List ℕ) (r : ℚ) :
    (backprop n path r).visits = n.visits + 1 := by
  obtain ⟨g, v, val, e, a, cs⟩ := n
  cases path with
  | nil => rfl
  | cons i rest => rfl

mutual

/-- The selection descent of `MCTSSearcher.single_step` (algorithm.py lines
116-125): while the current node is non-terminal, expanded and has
children, step into a child; the oracle chooses which (covering
`select_child`). -/
def descend : MNode → (ℕ → ℕ) → ℕ → List ℕ
  | .mk g _ _ e _ cs, sel, depth =>
    if g.over = false ∧ e = true ∧ cs.isEmpty = false then
      (sel depth % cs.length) :: descend_child cs (sel depth % cs.length) sel (depth + 1)
    else []

/-- Continue the descent inside the chosen child. -/
def descend_child : List MNode → ℕ → (ℕ → ℕ) → ℕ → List ℕ
  | [], _, _, _ => []
  | c :: _, 0, sel, depth => descend c sel depth
  | _ :: cs, Nat.succ j, sel, depth => descend_child cs j sel depth

end

mutual

/-- Fetch the node a chain of child indices leads to. -/
def get_node : MNode → List ℕ → MNode
  | n, [] => n
  | .mk _ _ _ _ _ cs, i :: rest => get_node_child cs i rest

/-- Fetch inside the child list (out-of-range indices, never produced by
`descend`, land on a dummy terminal node). -/
def get_node_child : List MNode → ℕ → List ℕ → MNode
  | [], _, _ => MNode.fresh (Game.mk true 0 0 (fun _ => 0) [])
  | c :: _, 0, rest => get_node c rest
  | _ :: cs, Nat.succ j, rest => get_node_child cs j rest

end

mutual

/-- Rewrite the node at the end of a chain of child indices with `f`,
modelling in-place mutation of that node. -/
def update_at : MNode → List ℕ → (MNode → MNode) → MNode
  | n, [], f => f n
  | .mk g v val e a cs, i :: rest, f => .mk g v val e a (update_at_child cs i rest f)

/-- Apply `update_at` inside the child list. -/
def update_at_child : List MNode → ℕ → List ℕ → (MNode → MNode) → List MNode
  | [], _, _, _ => []
  | c :: cs, 0, rest, f => update_at c rest f :: cs
  | c :: cs, Nat.succ j, rest, f => c :: update_at_child cs j rest f

end

theorem update_at_expand_visits (n : MNode) (path : List ℕ) :
    (update_at n path expand).visits = n.visits := by
  cases path with
  | nil =>
    rw [show update_at n [] expand = expand n from by rw [update_at]]
    exact expand_visits n
  | cons i rest =>
    obtain ⟨g, v, val, e, a, cs⟩ := n
    rw [show update_at (MNode.mk g v val e a cs) (i :: rest) expand =
      MNode.mk g v val e a (update_at_child cs i rest expand) from by rw [update_at]]
    rfl

/-- `random.choice(current.children)` with the oracle-chosen index. -/
def child_at (cs : List MNode) (j : ℕ) : MNode :=
  (cs.drop j).headD (MNode.fresh (Game.mk true 0 0 (fun _ => 0) []))

/-- `MCTSSearcher.single_step` (algorithm.py lines 110-151): descend while
the current node is non-terminal, expanded and has children; on a
non-terminal stop, expand it if it is unexpanded or childless and step into
an oracle-chosen child if any exist; simulate the reached node through the
cache-aware `simulate`; finally backpropagate the result from that node up
to the root.  The selection and `random.choice` choices and the random
draws of the spec-modelled rollout (`seed`) are oracle arguments. -/
def single_step (root : MNode) (table : Option Cache) (sel : ℕ → ℕ)
    (rnd : ℕ) (seed : ℕ) : MNode × Option Cache :=
  let path1 := descend root sel 0
  let cur1 := get_node root path1
  if cur1.terminal = false then
    let tree2 := if cur1.is_expanded = false ∨ cur1.children.isEmpty then
      update_at root path1 expand else root
    let cur2 := get_node tree2 path1
    if cur2.children.isEmpty then
      let sim := simulate cur2.game table seed
      (backprop tree2 path1 sim.1, sim.2)
    else
      let j := rnd % cur2.children.length
      let cur3 := child_at cur2.children j
      let sim := simulate cur3.game table seed
      (backprop tree2 (path1 ++ [j]) sim.1, sim.2)
  else
    let sim := simulate cur1.game table seed
    (backprop root path1 sim.1, sim.2)

/-- Every call of `single_step` increments the root's visit count exactly
once, through the single `backpropagate` of the selected path. -/
theorem single_step_visits (root : MNode) (table : Option Cache)
    (sel : ℕ → ℕ) (rnd : ℕ) (seed : ℕ) :
    (single_step root table sel rnd seed).1.visits = root.visits + 1 := by
  simp only [single_step]
  split
  · split
    · split
      · rw [backprop_visits, update_at_expand_visits]
      · rw [backprop_visits, update_at_expand_visits]
    · split
      · rw [backprop_visits]
      · rw [backprop_visits]
  · rw [backprop_visits]

/-- `MCTSSearcher.create_root_node` (algorithm.py lines 98-108): wrap a copy
of the position in a fresh node and expand it once. -/
def create_root (g : Game) : MNode := expand (MNode.fresh g)

theorem create_root_visits (g : Game) : (create_root g).visits = 0 := by
  rw [create_root, expand_visits]
  rfl

/-- The simulation loop of `MCTSSearcher.search` (algorithm.py lines
184-203): run `single_step` once per iteration, threading the tree and the
cache; `i` numbers the iterations so each consumes its own oracle entries.
(The periodic `save_cache` touches neither tree nor table contents.) -/
def search_loop (sel : ℕ → ℕ → ℕ) (rnd : ℕ → ℕ) (seeds : ℕ → ℕ) :
    ℕ → ℕ → MNode → Option Cache → MNode × Option Cache
  | _, 0, root, table => (root, table)
  | i, Nat.succ n, root, table =>
    let st := single_step root table (sel i) (rnd i) (seeds i)
    search_loop sel rnd seeds (i + 1) n st.1 st.2

/-- A fresh root followed by `num_simulations` iterations of `single_step`,
as `MCTSAgent.get_move` runs them. -/
def mcts_search (g : Game) (table : Option Cache) (sel : ℕ → ℕ → ℕ)
    (rnd : ℕ → ℕ) (seeds : ℕ → ℕ) (n : ℕ) : MNode × Option Cache :=
  search_loop sel rnd seeds 0 n (create_root g) table

theorem search_loop_visits (sel : ℕ → ℕ → ℕ) (rnd : ℕ → ℕ) (seeds : ℕ → ℕ) :
    ∀ (n i : ℕ) (root : MNode) (table : Option Cache),
    (search_loop sel rnd seeds i n root table).1.visits = root.visits + n := by
  intro n
  induction n with
  | zero =>
    intro i root table
    rfl
  | succ n ih =>
    intro i root table
    simp only [search_loop]
    rw [ih]
    rw [single_step_visits]
    omega

/-- C5: For every starting position, every oracle assignment (covering every
selection and expansion choice and every draw of the spec-modelled rollout,
with or without cache shortcuts) and every simulation count `N`, after
running `N` MCTS simulations from a freshly created root the root's visit
count equals exactly `N`: each `single_step` backpropagates along a path
anchored at the root exactly once, and the rollout — whose missing
dependencies are modelled from the spec as a returning verdict — never
touches a visit count. -/
theorem mcts_root_visit_conservation (g : Game) (table : Option Cache)
    (sel : ℕ → ℕ → ℕ) (rnd : ℕ → ℕ) (seeds : ℕ → ℕ) (n : ℕ) :
    (mcts_search g table sel rnd seeds n).1.visits = n := by
  rw [mcts_search, search_loop_visits, create_root_visits, zero_add]
